import Mathlib

/-!
Verification development for the `zc` encrypted-archive tool
(`src/go/encrypt/main.go`).

The Go program is shallowly embedded: paths are `List Char`, byte buffers
are `List Nat`, the filesystem is an in-memory tree, and the external
cryptographic and archive libraries (`golang.org/x/crypto/scrypt`,
`crypto/aes` + `crypto/cipher` GCM, `archive/zip`) are parameters of the
development bundled in a `CryptoEnv` structure, with their documented
contracts stated as explicit hypotheses.  Fallible I/O points are driven
by an `IOOracle` so that every exit path of the program is represented.
-/

set_option maxHeartbeats 1000000

namespace ZC

/-! ## Configuration constants (from the `const` block of main.go) -/

def scrypt_N : Nat := 1048576
def scrypt_r : Nat := 8
def scrypt_p : Nat := 1
def scrypt_nonce_len : Nat := 12
def scrypt_salt_len : Nat := 32
def scrypt_key_len : Nat := 32

/-- The container filename suffix `tool_ext = ".enc"`. -/
def encSuffix : List Char := ['.', 'e', 'n', 'c']

/-! ## Path model

Paths are lists of characters.  `goClean`, `goJoin`, `goDir`, `goBase`
model the Unix behaviour of Go's `path/filepath` functions `Clean`,
`Join`, `Dir` and `Base`, which the program uses for all path
manipulation.  `goClean` is implemented by the standard segment-stack
reading of `Clean`'s documented transformation (split on separators,
drop empty and `.` elements, resolve `..` elements against the stack).
-/

/-- Split a path on `'/'`, keeping empty chunks. -/
def splitOnSlash : List Char → List (List Char)
  | [] => [[]]
  | c :: rest =>
    if c = '/' then [] :: splitOnSlash rest
    else
      match splitOnSlash rest with
      | [] => [[c]]
      | s :: ss => (c :: s) :: ss

/-- Join path segments with `'/'`. -/
def joinSegs : List (List Char) → List Char
  | [] => []
  | [s] => s
  | s :: rest => s ++ '/' :: joinSegs rest

def dotSeg : List Char := ['.']
def dotDotSeg : List Char := ['.', '.']

/-- Segment-stack processing behind `filepath.Clean`: `stack` holds the
already-emitted elements in reverse order. -/
def procSegs (rooted : Bool) (stack : List (List Char)) :
    List (List Char) → List (List Char)
  | [] => stack.reverse
  | s :: rest =>
    if s = [] ∨ s = dotSeg then procSegs rooted stack rest
    else if s = dotDotSeg then
      match stack with
      | t :: ts =>
        if t = dotDotSeg then procSegs rooted (dotDotSeg :: t :: ts) rest
        else procSegs rooted ts rest
      | [] =>
        if rooted then procSegs rooted [] rest
        else procSegs rooted [dotDotSeg] rest
    else procSegs rooted (s :: stack) rest

/-- Model of `filepath.Clean` (Unix). -/
def goClean (p : List Char) : List Char :=
  match p with
  | [] => dotSeg
  | c :: _ =>
    let rooted := c = '/'
    let segs := procSegs rooted [] (splitOnSlash p)
    if rooted then '/' :: joinSegs segs
    else if segs = [] then dotSeg else joinSegs segs

/-- Model of `filepath.Join` for two elements (Unix): non-empty elements
are joined with `'/'` and the result is cleaned. -/
def goJoin (a b : List Char) : List Char :=
  if a = [] ∧ b = [] then []
  else if a = [] then goClean b
  else if b = [] then goClean a
  else goClean (a ++ '/' :: b)

/-- Model of `filepath.Dir` (Unix): everything up to and including the
final separator, cleaned; `"."` when there is no separator. -/
def goDir (p : List Char) : List Char :=
  let rel := (p.reverse.takeWhile (· ≠ '/')).length
  if rel = p.length then dotSeg
  else goClean (p.take (p.length - rel))

/-- Model of `filepath.Base` (Unix). -/
def goBase (p : List Char) : List Char :=
  if p = [] then dotSeg
  else
    let q := p.reverse.dropWhile (· = '/')
    if q = [] then ['/']
    else (q.takeWhile (· ≠ '/')).reverse

def isAbs (p : List Char) : Bool := p.head? = some '/'

/-- Model of `filepath.Abs` relative to a working directory. -/
def goAbs (cwd p : List Char) : List Char :=
  if isAbs p then goClean p else goJoin cwd p

/-- Model of `strings.TrimSuffix`. -/
def trimSuffix (s suf : List Char) : List Char :=
  if suf.isSuffixOf s then s.take (s.length - suf.length) else s

/-- An absolute path built from segments. -/
def absOfSegs (segs : List (List Char)) : List Char :=
  '/' :: joinSegs segs

/-- Segment list of a clean absolute path: split and drop empties.
This is how the in-memory filesystem resolves a path string. -/
def resolveSegs (p : List Char) : List (List Char) :=
  (splitOnSlash p).filter (· ≠ [])

/-- A valid filesystem name: non-empty, no separator, not `.` or `..`. -/
def validSeg (s : List Char) : Bool :=
  s ≠ [] && ¬ s.contains '/' && s ≠ dotSeg && s ≠ dotDotSeg

/-! ## Errors, panics and results

Each fallible point of the program gets its own `Site`, so that theorems
can talk about *which* stage failed.  A Go `panic` (as opposed to a
returned `error`) is a distinct outcome.
-/

inductive Site where
  | readInput | mkdirTemp | getPassword | saltGen | nonceGen | scryptFail
  | newCipher | newGCM | createZip | createOut | writeSalt | writeNonce
  | writeCt | writeZipStage | readZip | zipDecodeFail
  deriving DecidableEq, Repr

inductive Err where
  | usage
  | notFound (p : List Char)
  | inputError (p : List Char)
  | outputExists (p : List Char)
  | authFailure
  | pathSecurity (fp folder : List Char)
  | ioFail (s : Site)
  deriving DecidableEq, Repr

inductive Res (α : Type) where
  | ok (a : α)
  | err (e : Err)
  | panicked (msg : List Char)
  deriving DecidableEq, Repr

def sliceBoundsMsg : List Char := "slice bounds out of range".toList

/-- Go slice expression `l[lo:hi]`: panics when the bounds are bad. -/
def sliceGo (l : List Nat) (lo hi : Nat) : Res (List Nat) :=
  if lo ≤ hi ∧ hi ≤ l.length then .ok ((l.drop lo).take (hi - lo))
  else .panicked sliceBoundsMsg

/-- Go slice expression `l[lo:]`. -/
def sliceFrom (l : List Nat) (lo : Nat) : Res (List Nat) :=
  if lo ≤ l.length then .ok (l.drop lo)
  else .panicked sliceBoundsMsg

/-! ## Secret-buffer events

`zeroBytes` calls and secret allocations are recorded in an event trace
so that the zero-before-release discipline is provable over every path.
-/

inductive Tag where
  | password | key | saltBuf | plainBuf | cipherBuf
  deriving DecidableEq, Repr

inductive Event where
  | alloc (t : Tag)
  | zero (t : Tag)
  deriving DecidableEq, Repr

/-- Every `alloc t` in the trace is followed by a later `zero t`. -/
def allocsZeroed (t : Tag) : List Event → Bool
  | [] => true
  | e :: rest =>
    (if e = .alloc t then (Event.zero t) ∈ rest else true) && allocsZeroed t rest

/-! ## Archive entries and the external libraries

`Entry` is the data of one zip entry as the program uses it: the header
name, the directory flag (trailing `/` on the name), the mode bits and
the content.  The zip byte format, scrypt and AES-GCM live in external
libraries; they enter the development as the fields of a `CryptoEnv`,
and their documented contracts are separate `Prop`s taken as hypotheses
by the theorems that need them.
-/

structure Entry where
  name : List Char
  isDir : Bool
  mode : Nat
  content : List Nat
  deriving DecidableEq, Repr

structure CryptoEnv where
  /-- `scrypt.Key password salt N r p keyLen`. -/
  scryptKey : List Nat → List Nat → Nat → Nat → Nat → Nat → Except (List Char) (List Nat)
  /-- `aesgcm.Seal nil nonce plaintext nil` under the given key. -/
  sealAEAD : List Nat → List Nat → List Nat → List Nat
  /-- `aesgcm.Open nil nonce ciphertext nil`; `none` is the single
  `cipher: message authentication failed` error. -/
  openAEAD : List Nat → List Nat → List Nat → Option (List Nat)
  /-- Zip serialization done by `zip.NewWriter`. -/
  zipEncode : List Entry → List Nat
  /-- Zip parsing done by `zip.NewReader`. -/
  zipDecode : List Nat → Option (List Entry)

/-- Documented contract: sealing appends a 16-byte GCM tag. -/
def SealLen (env : CryptoEnv) : Prop :=
  ∀ k n p, (env.sealAEAD k n p).length = p.length + 16

/-- Documented contract: `Open` inverts `Seal` and accepts nothing else
under the same key and nonce (ideal authenticated encryption). -/
def OpenIffSeal (env : CryptoEnv) : Prop :=
  ∀ k n c p, env.openAEAD k n c = some p ↔ c = env.sealAEAD k n p

/-- Flip bit `bit` of byte `idx` of a buffer. -/
def flipBitAt (l : List Nat) (idx bit : Nat) : List Nat :=
  match l[idx]? with
  | none => l
  | some b => l.set idx (if b.testBit bit then b - 2 ^ bit else b + 2 ^ bit)

/-- Documented contract (tamper detection): no single-bit corruption of a
sealed message is accepted. -/
def SingleBitTamper (env : CryptoEnv) : Prop :=
  ∀ k n p p' i j, i < (env.sealAEAD k n p).length → j < 8 →
    flipBitAt (env.sealAEAD k n p) i j ≠ env.sealAEAD k n p'

/-- Documented contract: the zip reader inverts the zip writer. -/
def ZipRoundtrip (env : CryptoEnv) : Prop :=
  ∀ es, env.zipDecode (env.zipEncode es) = some es

/-! ## Filesystem model

A directory tree; each node carries its own name.  The root of a
filesystem is an anonymous directory.  Operations mirror the `os`
functions the program calls, addressed by resolved segment lists.
-/

inductive Node where
  | file (name : List Char) (mode : Nat) (content : List Nat)
  | dir (name : List Char) (mode : Nat) (children : List Node)

def Node.nameOf : Node → List Char
  | .file nm _ _ => nm
  | .dir nm _ _ => nm

def findChild (cs : List Node) (x : List Char) : Option Node :=
  match cs with
  | [] => none
  | c :: rest => if c.nameOf = x then some c else findChild rest x

def replaceChild (cs : List Node) (x : List Char) (c' : Node) : List Node :=
  match cs with
  | [] => []
  | c :: rest => if c.nameOf = x then c' :: rest else c :: replaceChild rest x c'

def lookupN (n : Node) : List (List Char) → Option Node
  | [] => some n
  | x :: rest =>
    match n with
    | .file _ _ _ => none
    | .dir _ _ cs =>
      match findChild cs x with
      | some c => lookupN c rest
      | none => none

/-- `os.MkdirAll(path, os.ModePerm)`: create all missing directories
along the path with permission bits `0o777`; existing nodes are kept.
A file in the way blocks the walk (Go would return an error there;
no caller of the model reaches that situation). -/
def mkdirAllN (n : Node) : List (List Char) → Node
  | [] => n
  | x :: rest =>
    match n with
    | .file nm m c => .file nm m c
    | .dir nm m cs =>
      match findChild cs x with
      | some c => .dir nm m (replaceChild cs x (mkdirAllN c rest))
      | none => .dir nm m (cs ++ [mkdirAllN (.dir x 511 []) rest])

/-- Create-or-truncate a file with the given mode: `os.OpenFile` with
`O_CREATE|O_TRUNC` (and `os.WriteFile`) applies `mode` only when the
file does not yet exist. -/
def writeFileN (n : Node) (path : List (List Char)) (mode : Nat)
    (content : List Nat) : Node :=
  match path, n with
  | [], _ => n
  | [x], .dir nm m cs =>
    match findChild cs x with
    | some (.file _ oldm _) => .dir nm m (replaceChild cs x (.file x oldm content))
    | some (.dir _ _ _) => .dir nm m cs
    | none => .dir nm m (cs ++ [.file x mode content])
  | x :: rest, .dir nm m cs =>
    match findChild cs x with
    | some c => .dir nm m (replaceChild cs x (writeFileN c rest mode content))
    | none => .dir nm m cs
  | _ :: _, .file nm m c => .file nm m c

/-- Append bytes to an existing file (a successful `File.Write` call). -/
def appendFileN (n : Node) (path : List (List Char)) (bytes : List Nat) : Node :=
  match path, n with
  | [], _ => n
  | [x], .dir nm m cs =>
    match findChild cs x with
    | some (.file _ oldm oldc) =>
      .dir nm m (replaceChild cs x (.file x oldm (oldc ++ bytes)))
    | _ => .dir nm m cs
  | x :: rest, .dir nm m cs =>
    match findChild cs x with
    | some c => .dir nm m (replaceChild cs x (appendFileN c rest bytes))
    | none => .dir nm m cs
  | _ :: _, .file nm m c => .file nm m c

/-- `os.RemoveAll`: delete the node at the path (and everything below). -/
def removeAllN (n : Node) : List (List Char) → Node
  | [] => n
  | [x] =>
    match n with
    | .file nm m c => .file nm m c
    | .dir nm m cs => .dir nm m (cs.filter (fun c => c.nameOf ≠ x))
  | x :: rest =>
    match n with
    | .file nm m c => .file nm m c
    | .dir nm m cs =>
      match findChild cs x with
      | some c => .dir nm m (replaceChild cs x (removeAllN c rest))
      | none => .dir nm m cs

/-- `os.Stat` succeeds. -/
def statN (n : Node) (p : List (List Char)) : Bool :=
  (lookupN n p).isSome

def isDirNode : Node → Bool
  | .dir _ _ _ => true
  | .file _ _ _ => false

/-- Sibling names are pairwise distinct. -/
def nodupNames : List Node → Bool
  | [] => true
  | c :: rest => rest.all (fun d => d.nameOf ≠ c.nameOf) && nodupNames rest

/-- A well-formed directory tree: every name is a valid filesystem name
and sibling names are distinct — exactly what a real filesystem
guarantees for the input of the pipeline. -/
def validNode (n : Node) : Bool :=
  match n with
  | .file nm _ _ => validSeg nm
  | .dir nm _ cs =>
    validSeg nm && nodupNames cs &&
      cs.attach.all (fun c => validNode c.1)
termination_by sizeOf n
decreasing_by
  simp_wf
  have := List.sizeOf_lt_of_mem c.2
  omega

/-- The tree actually recreated by extraction: identical except that
every directory gets permission bits `0o777` (`os.MkdirAll` is called
with `os.ModePerm`, not with the stored directory mode). -/
def mirror (n : Node) : Node :=
  match n with
  | .file nm m c => .file nm m c
  | .dir nm _ cs => .dir nm 511 (cs.attach.map (fun c => mirror c.1))
termination_by sizeOf n
decreasing_by
  simp_wf
  have := List.sizeOf_lt_of_mem c.2
  omega

/-- One walk step of `zipFolder`: `filepath.Walk` visits the node, then
its children; `header.Name` is the path relative to the *parent* of the
walk root (`filepath.Rel(filepath.Dir(folder), path)`), with a trailing
separator appended for directories. -/
def walkEntries (pre : List (List Char)) (n : Node) : List Entry :=
  match n with
  | .file nm m c => [⟨joinSegs (pre ++ [nm]), false, m, c⟩]
  | .dir nm m cs =>
    ⟨joinSegs (pre ++ [nm]) ++ ['/'], true, m, []⟩ ::
      (cs.attach.map (fun c => walkEntries (pre ++ [nm]) c.1)).flatten
termination_by sizeOf n
decreasing_by
  simp_wf
  have := List.sizeOf_lt_of_mem c.2
  omega

/-! ## Container codec

`encryptFile` writes `salt ‖ nonce ‖ ciphertext` by three consecutive
`Write` calls; `decryptFile` recovers the three fields with the slice
expressions `data[:32]`, `data[32:44]`, `data[44:]` — with no length
check before slicing. -/

def serializeContainer (salt nonce ct : List Nat) : List Nat :=
  salt ++ nonce ++ ct

/-- The slicing prefix of `decryptFile` (main.go lines 128–131). -/
def parseContainer (data : List Nat) : Res (List Nat × List Nat × List Nat) :=
  match sliceGo data 0 scrypt_salt_len with
  | .panicked m => .panicked m
  | .err e => .err e
  | .ok salt =>
    match sliceGo data scrypt_salt_len (scrypt_salt_len + scrypt_nonce_len) with
    | .panicked m => .panicked m
    | .err e => .err e
    | .ok nonce =>
      match sliceFrom data (scrypt_salt_len + scrypt_nonce_len) with
      | .panicked m => .panicked m
      | .err e => .err e
      | .ok ct => .ok (salt, nonce, ct)

/-! ## I/O oracle

Outcomes of the external world: random bytes, terminal input, the name
chosen by `os.MkdirTemp`, and an error switch for each fallible system
call the program checks.  Theorems quantify over the oracle, so every
exit path of the program is covered. -/

structure IOOracle where
  cwd : List Char := ['/']
  tempName : List Char
  mkdirTempErr : Bool := false
  passwordRes : Except (List Char) (List Nat)
  saltBytes : List Nat := []
  saltErr : Bool := false
  nonceBytes : List Nat := []
  nonceErr : Bool := false
  newCipherErr : Bool := false
  newGCMErr : Bool := false
  createZipErr : Bool := false
  createOutErr : Bool := false
  writeSaltErr : Bool := false
  writeNonceErr : Bool := false
  writeCtErr : Bool := false
  writeZipStageErr : Bool := false

/-- `make([]byte, 32)` filled by `rand.Read`: always exactly 32 bytes. -/
def mkSalt (io : IOOracle) : List Nat :=
  io.saltBytes.take scrypt_salt_len ++
    List.replicate (scrypt_salt_len - io.saltBytes.length) 0

/-- `make([]byte, 12)` filled by `io.ReadFull(rand.Reader, ·)`. -/
def mkNonce (io : IOOracle) : List Nat :=
  io.nonceBytes.take scrypt_nonce_len ++
    List.replicate (scrypt_nonce_len - io.nonceBytes.length) 0

/-! ## `encryptFile` -/

/-- `encryptFile` after the key has been derived: cipher setup, nonce
generation, seal, and the four writes that place the container at its
destination.  The salt/key `zeroBytes` defers are appended by the
caller. -/
def encAfterKey (env : CryptoEnv) (io : IOOracle) (fs : Node)
    (outName : List Char) (pt salt key : List Nat) :
    Res Unit × Node × List Event :=
  if io.newCipherErr then (.err (.ioFail .newCipher), fs, [])
  else if io.newGCMErr then (.err (.ioFail .newGCM), fs, [])
  else if io.nonceErr then (.err (.ioFail .nonceGen), fs, [])
  else
    let nonce := mkNonce io
    let ct := env.sealAEAD key nonce pt
    if io.createOutErr then (.err (.ioFail .createOut), fs, [])
    else
      let fs1 := writeFileN fs (resolveSegs outName) 438 []
      if io.writeSaltErr then (.err (.ioFail .writeSalt), fs1, [])
      else
        let fs2 := appendFileN fs1 (resolveSegs outName) salt
        if io.writeNonceErr then (.err (.ioFail .writeNonce), fs2, [])
        else
          let fs3 := appendFileN fs2 (resolveSegs outName) nonce
          if io.writeCtErr then (.err (.ioFail .writeCt), fs3, [])
          else (.ok (), appendFileN fs3 (resolveSegs outName) ct, [])

/-- `encryptFile(filename, encrypted_file_name, password)`:
read the plaintext, generate a salt, derive the key (whose `zeroBytes`
defers wrap everything after), then `encAfterKey`. -/
def encryptFileM (env : CryptoEnv) (io : IOOracle) (fs : Node)
    (filename outName : List Char) (password : List Nat) :
    Res Unit × Node × List Event :=
  match lookupN fs (resolveSegs filename) with
  | some (.file _ _ pt) =>
    if io.saltErr then (.err (.ioFail .saltGen), fs, [])
    else
      let salt := mkSalt io
      match env.scryptKey password salt scrypt_N scrypt_r scrypt_p scrypt_key_len with
      | .error _ => (.err (.ioFail .scryptFail), fs, [])
      | .ok key =>
        let r := encAfterKey env io fs outName pt salt key
        (r.1, r.2.1, Event.alloc .key :: r.2.2 ++ [.zero .saltBuf, .zero .key])
  | _ => (.err (.ioFail .readInput), fs, [])

/-! ## `decryptFile` -/

/-- `decryptFile` after a successful `aesgcm.Open`: write the recovered
plaintext (the staged zip) with `os.WriteFile(..., 0644)`. -/
def decAfterOpen (io : IOOracle) (fs : Node) (outName : List Char)
    (pt : List Nat) : Res Unit × Node × List Event :=
  if io.writeZipStageErr then (.err (.ioFail .writeZipStage), fs, [])
  else (.ok (), writeFileN fs (resolveSegs outName) 420 pt, [])

/-- `decryptFile` after the key has been derived: cipher setup and
`aesgcm.Open`; an authentication failure is collapsed to the single
`decryption failed: invalid password or corrupted file` error. -/
def decAfterKey (env : CryptoEnv) (io : IOOracle) (fs : Node)
    (outName : List Char) (nonce ct key : List Nat) :
    Res Unit × Node × List Event :=
  if io.newCipherErr then (.err (.ioFail .newCipher), fs, [])
  else if io.newGCMErr then (.err (.ioFail .newGCM), fs, [])
  else
    match env.openAEAD key nonce ct with
    | none => (.err .authFailure, fs, [])
    | some pt =>
      let r := decAfterOpen io fs outName pt
      (r.1, r.2.1, r.2.2 ++ [.zero .plainBuf])

/-- `decryptFile` after the container has been read: slice out salt,
nonce and ciphertext (Go panics here on short input), derive the key,
then `decAfterKey` wrapped in the salt/key `zeroBytes` defers. -/
def decAfterRead (env : CryptoEnv) (io : IOOracle) (fs : Node)
    (outName : List Char) (data password : List Nat) :
    Res Unit × Node × List Event :=
  match parseContainer data with
  | .panicked m => (.panicked m, fs, [])
  | .err e => (.err e, fs, [])
  | .ok (salt, nonce, ct) =>
    match env.scryptKey password salt scrypt_N scrypt_r scrypt_p scrypt_key_len with
    | .error _ => (.err (.ioFail .scryptFail), fs, [])
    | .ok key =>
      let r := decAfterKey env io fs outName nonce ct key
      (r.1, r.2.1, Event.alloc .key :: r.2.2 ++ [.zero .saltBuf, .zero .key])

/-- `decryptFile(encrypted_file_name, decrypted_file_name, password)`. -/
def decryptFileM (env : CryptoEnv) (io : IOOracle) (fs : Node)
    (encName outName : List Char) (password : List Nat) :
    Res Unit × Node × List Event :=
  match lookupN fs (resolveSegs encName) with
  | some (.file _ _ data) =>
    let r := decAfterRead env io fs outName data password
    (r.1, r.2.1, r.2.2 ++ [.zero .cipherBuf])
  | _ => (.err (.ioFail .readInput), fs, [])

/-! ## `zipFolder` and `unzipFolder` -/

/-- `zipFolder(folder, zipFileName)`: create the staging file, walk the
tree rooted at `folder` and write the archive.  The walk itself cannot
fail on an in-memory tree; the `os.Create` of the staging file can. -/
def zipFolderM (env : CryptoEnv) (io : IOOracle) (fs : Node)
    (folder zipName : List Char) : Res Unit × Node :=
  if io.createZipErr then (.err (.ioFail .createZip), fs)
  else
    match lookupN fs (resolveSegs folder) with
    | some n =>
      (.ok (), writeFileN fs (resolveSegs zipName) 438
        (env.zipEncode (walkEntries [] n)))
    | none => (.err (.ioFail .readInput), fs)

/-- The containment check of `unzipFolder` (main.go lines 264–267):
`!strings.HasPrefix(filepath.Clean(filePath), filepath.Clean(folder)+"/")`
where `filePath = filepath.Join(folder, zf.Name)`. -/
def escapesRoot (folder name : List Char) : Bool :=
  ¬ (goClean folder ++ ['/']).isPrefixOf (goClean (goJoin folder name))

/-- The filesystem effect of extracting one (already checked) entry. -/
def unzipStep (folder : List Char) (fs : Node) (e : Entry) : Node :=
  let fp := goJoin folder e.name
  if e.isDir then mkdirAllN fs (resolveSegs fp)
  else writeFileN (mkdirAllN fs (resolveSegs (goDir fp))) (resolveSegs fp)
    e.mode e.content

/-- The entry loop of `unzipFolder`: for each entry, run the containment
check first, and only then create directories / write the file. -/
def unzipEntriesM (folder : List Char) (entries : List Entry) (fs : Node) :
    Res Unit × Node :=
  match entries with
  | [] => (.ok (), fs)
  | e :: rest =>
    if escapesRoot folder e.name then
      (.err (.pathSecurity (goJoin folder e.name) folder), fs)
    else unzipEntriesM folder rest (unzipStep folder fs e)

/-- `unzipFolder(zipFileName, folder)`: open and parse the archive, then
extract the entries. -/
def unzipFolderM (env : CryptoEnv) (fs : Node) (zipName folder : List Char) :
    Res Unit × Node :=
  match lookupN fs (resolveSegs zipName) with
  | some (.file _ _ bytes) =>
    match env.zipDecode bytes with
    | some entries => unzipEntriesM folder entries fs
    | none => (.err (.ioFail .zipDecodeFail), fs)
  | _ => (.err (.ioFail .readZip), fs)

/-! ## The CLI orchestrator -/

/-- Outcome of the argument handling and input validation of `cli`
(main.go lines 320–350) plus the branch selection taken on the *cleaned*
filename (line 372). -/
inductive Choice where
  | help
  | version
  | usage
  | notFound (p : List Char)
  | badInput (p : List Char)
  | encBranch (f : List Char)
  | decBranch (f : List Char)
  deriving DecidableEq, Repr

def helpFlag1 : List Char := "-h".toList
def helpFlag2 : List Char := "--help".toList
def versionFlag1 : List Char := "-v".toList
def versionFlag2 : List Char := "--version".toList

/-- Argument checking and branch selection of `cli`. -/
def cliChoice (fs : Node) (args : List (List Char)) : Choice :=
  match args with
  | [] => .help
  | a :: rest =>
    if a = helpFlag1 ∨ a = helpFlag2 then .help
    else if a = versionFlag1 ∨ a = versionFlag2 then .version
    else if rest ≠ [] then .usage
    else
      match lookupN fs (resolveSegs a) with
      | none => .notFound a
      | some n =>
        if ¬ isDirNode n ∧ ¬ encSuffix.isSuffixOf a then .badInput a
        else
          let f := goClean a
          if encSuffix.isSuffixOf f then .decBranch f else .encBranch f

/-- The work of the decrypt branch, after the temp directory and the
password exist: output-collision check, `decryptFile` into the staging
directory, `unzipFolder` into the working directory. -/
def cliDecWork (env : CryptoEnv) (io : IOOracle) (fs : Node)
    (f wd temp : List Char) (pw : List Nat) : Res Unit × Node × List Event :=
  let output := trimSuffix f encSuffix
  if statN fs (resolveSegs output) then (.err (.outputExists output), fs, [])
  else
    let zipFile := goJoin temp (goBase output)
    let r := decryptFileM env io fs f zipFile pw
    match r.1 with
    | .ok _ =>
      let u := unzipFolderM env r.2.1 zipFile wd
      (u.1, u.2, r.2.2)
    | .err e => (.err e, r.2.1, r.2.2)
    | .panicked m => (.panicked m, r.2.1, r.2.2)

/-- The work of the encrypt branch: `zipFolder` into the staging
directory, then `encryptFile` to the real output `f ++ ".enc"`. -/
def cliEncWork (env : CryptoEnv) (io : IOOracle) (fs : Node)
    (f _wd temp : List Char) (pw : List Nat) : Res Unit × Node × List Event :=
  let output := f ++ encSuffix
  let zipFile := goJoin temp (goBase output)
  let z := zipFolderM env io fs f zipFile
  match z.1 with
  | .ok _ => encryptFileM env io z.2 zipFile output pw
  | .err e => (.err e, z.2, [])
  | .panicked m => (.panicked m, z.2, [])

/-- The shared shell of both branches: collect the password (zeroed by a
`defer` on every later exit) and run the branch work. -/
def cliAfterTemp (env : CryptoEnv) (io : IOOracle) (fs : Node)
    (f wd temp : List Char) (isDec : Bool) : Res Unit × Node × List Event :=
  match io.passwordRes with
  | .error _ => (.err (.ioFail .getPassword), fs, [])
  | .ok pw =>
    let r := if isDec then cliDecWork env io fs f wd temp pw
             else cliEncWork env io fs f wd temp pw
    (r.1, r.2.1, Event.alloc .password :: r.2.2 ++ [.zero .password])

/-- One branch of `cli` from line 352 on: compute the working directory,
create the staging directory (removed again by a `defer` on every exit),
then `cliAfterTemp`. -/
def cliBranch (env : CryptoEnv) (io : IOOracle) (fs : Node)
    (f : List Char) (isDec : Bool) : Res Unit × Node × List Event :=
  let wd := goAbs io.cwd (goDir f)
  if io.mkdirTempErr then (.err (.ioFail .mkdirTemp), fs, [])
  else
    let temp := goJoin wd io.tempName
    let fs1 := mkdirAllN fs (resolveSegs temp)
    let r := cliAfterTemp env io fs1 f wd temp isDec
    (r.1, removeAllN r.2.1 (resolveSegs temp), r.2.2)

/-- `cli(args)`. -/
def cliFull (env : CryptoEnv) (io : IOOracle) (fs : Node)
    (args : List (List Char)) : Res Unit × Node × List Event :=
  match cliChoice fs args with
  | .help => (.ok (), fs, [])
  | .version => (.ok (), fs, [])
  | .usage => (.err .usage, fs, [])
  | .notFound p => (.err (.notFound p), fs, [])
  | .badInput p => (.err (.inputError p), fs, [])
  | .encBranch f => cliBranch env io fs f false
  | .decBranch f => cliBranch env io fs f true

/-! ## A concrete environment satisfying the external contracts

Used only to instantiate theorems at concrete inputs: an ideal
authenticated cipher over `List Nat` (identity body plus a 16-byte tag
whose first byte is a mod-256 checksum of key, nonce and body) and an
injective, self-delimiting archive encoding. -/

def toyTag (k n c : List Nat) : List Nat :=
  ((k.sum + n.sum + c.sum) % 256) :: List.replicate 15 0

def toySeal (k n p : List Nat) : List Nat :=
  p ++ toyTag k n p

def toyOpen (k n c : List Nat) : Option (List Nat) :=
  if c = toySeal k n (c.take (c.length - 16)) then
    some (c.take (c.length - 16))
  else none

def toyKdf (pw salt : List Nat) (_N _r _p kl : Nat) : Except (List Char) (List Nat) :=
  .ok (List.replicate kl ((pw.sum + salt.sum) % 256))

def encEntryB (e : Entry) : List Nat :=
  e.name.length :: e.name.map Char.toNat ++
    (if e.isDir then 1 else 0) :: e.mode :: e.content.length :: e.content

def zipEncodeT (es : List Entry) : List Nat :=
  es.length :: (es.map encEntryB).flatten

def takeExact (n : Nat) (l : List Nat) : Option (List Nat × List Nat) :=
  if n ≤ l.length then some (l.take n, l.drop n) else none

def decEntryB (l : List Nat) : Option (Entry × List Nat) :=
  match l with
  | [] => none
  | nl :: rest =>
    match takeExact nl rest with
    | none => none
    | some (nameNats, r1) =>
      match r1 with
      | d :: m :: cl :: r2 =>
        match takeExact cl r2 with
        | none => none
        | some (content, r3) =>
          some (⟨nameNats.map Char.ofNat, d = 1, m, content⟩, r3)
      | _ => none

def decEntriesB : Nat → List Nat → Option (List Entry)
  | 0, l => if l = [] then some [] else none
  | k + 1, l =>
    match decEntryB l with
    | some (e, rest) => (decEntriesB k rest).map (e :: ·)
    | none => none

def zipDecodeT (l : List Nat) : Option (List Entry) :=
  match l with
  | [] => none
  | k :: rest => decEntriesB k rest

def toyEnv : CryptoEnv where
  scryptKey := toyKdf
  sealAEAD := toySeal
  openAEAD := toyOpen
  zipEncode := zipEncodeT
  zipDecode := zipDecodeT

theorem toyTag_length (k n c : List Nat) : (toyTag k n c).length = 16 := by
  simp [toyTag]

theorem toySeal_length (k n p : List Nat) :
    (toySeal k n p).length = p.length + 16 := by
  simp [toySeal, toyTag_length]

theorem toyEnv_sealLen : SealLen toyEnv := by
  intro k n p
  exact toySeal_length k n p

theorem toySeal_take (k n p : List Nat) :
    (toySeal k n p).take ((toySeal k n p).length - 16) = p := by
  rw [toySeal_length]
  simp [toySeal, List.take_append_of_le_length]

theorem toyOpen_toySeal (k n p : List Nat) :
    toyOpen k n (toySeal k n p) = some p := by
  unfold toyOpen
  simp [toySeal_take]

theorem toyEnv_openIffSeal : OpenIffSeal toyEnv := by
  intro k n c p
  show toyOpen k n c = some p ↔ c = toySeal k n p
  constructor
  · intro h
    unfold toyOpen at h
    split at h
    · rename_i heq
      simp only [Option.some.injEq] at h
      rw [h] at heq
      exact heq
    · exact absurd h (by simp)
  · intro h
    rw [h]
    exact toyOpen_toySeal k n p

theorem flipVal_ne (b j : Nat) :
    (if b.testBit j then b - 2 ^ j else b + 2 ^ j) ≠ b := by
  have h2 : 0 < 2 ^ j := Nat.two_pow_pos j
  split
  · rename_i ht
    have := Nat.testBit_implies_ge ht
    omega
  · omega

theorem flipBitAt_set (l : List Nat) (i j : Nat) (hi : i < l.length) :
    flipBitAt l i j =
      l.set i (if l[i].testBit j then l[i] - 2 ^ j else l[i] + 2 ^ j) := by
  unfold flipBitAt
  rw [List.getElem?_eq_getElem hi]

theorem sum_set_lt (l : List Nat) (i x : Nat) (hi : i < l.length) :
    (l.set i x).sum + l[i] = l.sum + x := by
  rw [List.sum_set]
  have hdrop := List.sum_take_add_sum_drop l i
  rw [List.drop_eq_getElem_cons hi] at hdrop
  simp only [List.sum_cons] at hdrop
  simp only [hi, if_pos]
  omega

theorem toyEnv_singleBitTamper : SingleBitTamper toyEnv := by
  intro k n p p' i j hi hj heq
  replace heq : flipBitAt (toySeal k n p) i j = toySeal k n p' := heq
  replace hi : i < (toySeal k n p).length := hi
  rw [flipBitAt_set _ _ _ hi] at heq
  have hlen : p'.length = p.length := by
    have := congrArg List.length heq
    simp only [List.length_set, toySeal_length] at this
    omega
  have hd1 : 1 ≤ 2 ^ j := Nat.two_pow_pos j
  have hd2 : 2 ^ j ≤ 128 := by
    calc 2 ^ j ≤ 2 ^ 7 := Nat.pow_le_pow_right (by norm_num) (by omega)
    _ = 128 := by norm_num
  have hi16 : i < p.length + 16 := by
    have := toySeal_length k n p
    omega
  by_cases hcase : i < p.length
  · -- the flipped bit is in the body: the checksum byte of the tag no
    -- longer matches
    have hbval : (toySeal k n p)[i] = p[i] := by
      unfold toySeal
      exact List.getElem_append_left hcase
    rw [hbval] at heq
    have hxprop : (2 ^ j ≤ p[i] ∧
        (if p[i].testBit j then p[i] - 2 ^ j else p[i] + 2 ^ j) = p[i] - 2 ^ j) ∨
        (if p[i].testBit j then p[i] - 2 ^ j else p[i] + 2 ^ j) = p[i] + 2 ^ j := by
      split
      · exact Or.inl ⟨Nat.testBit_implies_ge (by assumption), rfl⟩
      · exact Or.inr rfl
    generalize hxg : (if p[i].testBit j = true then p[i] - 2 ^ j else p[i] + 2 ^ j) = x
      at heq hxprop
    have hset : (toySeal k n p).set i x = (p.set i x) ++ toyTag k n p := by
      unfold toySeal
      rw [List.set_append, if_pos hcase]
    rw [hset] at heq
    unfold toySeal at heq
    obtain ⟨hbody, htag⟩ := List.append_inj heq (by simp [List.length_set, hlen])
    have hsum : (p.set i x).sum + p[i] = p.sum + x := sum_set_lt p i x hcase
    have htagsum : (k.sum + n.sum + p.sum) % 256 = (k.sum + n.sum + p'.sum) % 256 := by
      have := congrArg (fun l => l.headI) htag
      simpa [toyTag] using this
    rw [← hbody] at htagsum
    have hble : p[i] ≤ p.sum := by
      apply List.single_le_sum (by intro y _; exact Nat.zero_le y)
      exact List.getElem_mem hcase
    obtain ⟨d, hd⟩ : ∃ d, 2 ^ j = d := ⟨_, rfl⟩
    rw [hd] at hd1 hd2 hxprop
    rcases hxprop with ⟨hdb, hxv⟩ | hxv <;> omega
  · -- the flipped bit is in the tag: the stored tag no longer matches
    -- the recomputed one
    have hile : p.length ≤ i := Nat.le_of_not_lt hcase
    have hx : (if (toySeal k n p)[i].testBit j then (toySeal k n p)[i] - 2 ^ j
        else (toySeal k n p)[i] + 2 ^ j) ≠ (toySeal k n p)[i] := flipVal_ne _ j
    generalize hxg : (if (toySeal k n p)[i].testBit j = true then (toySeal k n p)[i] - 2 ^ j
      else (toySeal k n p)[i] + 2 ^ j) = x at heq hx
    have hset : (toySeal k n p).set i x = p ++ (toyTag k n p).set (i - p.length) x := by
      unfold toySeal
      rw [List.set_append, if_neg hcase]
    rw [hset] at heq
    unfold toySeal at heq
    obtain ⟨hbody, htag⟩ := List.append_inj heq (by simp [hlen])
    have hm : i - p.length < (toyTag k n p).length := by
      rw [toyTag_length]; omega
    have hm' : i - p.length < ((toyTag k n p).set (i - p.length) x).length := by
      rw [List.length_set]; exact hm
    have hxval : ((toyTag k n p).set (i - p.length) x)[i - p.length] = x :=
      List.getElem_set_self hm'
    have hbval : (toySeal k n p)[i] = (toyTag k n p)[i - p.length] := by
      unfold toySeal
      exact List.getElem_append_right hile
    rw [← hbody] at htag
    have hcmp := congrArg (fun l => l[i - p.length]?) htag
    simp only [List.getElem?_eq_getElem hm', List.getElem?_eq_getElem hm] at hcmp
    rw [hxval] at hcmp
    exact hx (by rw [hbval]; exact Option.some.inj hcmp)

theorem decEntryB_encEntryB (e : Entry) (rest : List Nat) :
    decEntryB (encEntryB e ++ rest) = some (e, rest) := by
  obtain ⟨nm, d, m, c⟩ := e
  simp only [encEntryB, decEntryB, List.cons_append, List.append_assoc]
  rw [takeExact, if_pos (by simp)]
  simp only [List.cons_append]
  rw [List.take_append_of_le_length (by simp), List.drop_append_of_le_length (by simp)]
  simp only [← List.map_take, ← List.map_drop, List.take_length, List.drop_length,
    List.map_nil, List.nil_append]
  rw [takeExact, if_pos (by simp)]
  rw [List.take_append_of_le_length (by simp), List.drop_append_of_le_length (by simp)]
  simp only [List.take_length, List.drop_length, List.nil_append, List.map_map,
    Option.some.injEq, Prod.mk.injEq, and_true, Entry.mk.injEq]
  cases d <;>
    simp [show Char.ofNat ∘ Char.toNat = id from funext fun c => Char.ofNat_toNat c]

theorem decEntriesB_flatten (es : List Entry) :
    decEntriesB es.length (es.map encEntryB).flatten = some es := by
  induction es with
  | nil => simp [decEntriesB]
  | cons e rest ih =>
    simp only [List.map_cons, List.flatten_cons, List.length_cons, decEntriesB,
      decEntryB_encEntryB, ih]
    rfl

theorem toyEnv_zipRoundtrip : ZipRoundtrip toyEnv := by
  intro es
  show zipDecodeT (zipEncodeT es) = some es
  simp only [zipEncodeT, zipDecodeT]
  exact decEntriesB_flatten es

/-! ## Path lemmas

`goClean`, `goJoin`, `goDir`, `goBase` act as expected on paths built
from valid segments; these identities drive both the containment check
and the filesystem bookkeeping of extraction. -/

theorem validSeg_ne_nil {s : List Char} (h : validSeg s = true) : s ≠ [] := by
  simp [validSeg] at h
  tauto

theorem validSeg_no_slash {s : List Char} (h : validSeg s = true) : '/' ∉ s := by
  simp [validSeg] at h
  tauto

theorem validSeg_ne_dot {s : List Char} (h : validSeg s = true) :
    s ≠ dotSeg ∧ s ≠ dotDotSeg := by
  simp [validSeg] at h
  tauto

theorem splitOnSlash_no_slash {l : List Char} (h : '/' ∉ l) :
    splitOnSlash l = [l] := by
  induction l with
  | nil => rfl
  | cons c rest ih =>
    rw [splitOnSlash]
    rw [if_neg (by intro hc; exact h (hc ▸ List.mem_cons_self c rest))]
    rw [ih (fun hm => h (List.mem_cons_of_mem c hm))]

theorem splitOnSlash_append {l r : List Char} (h : '/' ∉ l) :
    splitOnSlash (l ++ '/' :: r) = l :: splitOnSlash r := by
  induction l with
  | nil => simp [splitOnSlash]
  | cons c rest ih =>
    rw [List.cons_append, splitOnSlash]
    rw [if_neg (by intro hc; exact h (hc ▸ List.mem_cons_self c rest))]
    rw [ih (fun hm => h (List.mem_cons_of_mem c hm))]

theorem splitOnSlash_ne_nil (l : List Char) : splitOnSlash l ≠ [] := by
  cases l with
  | nil => simp [splitOnSlash]
  | cons c rest =>
    rw [splitOnSlash]
    split
    · simp
    · split <;> simp

theorem joinSegs_cons (s t : List Char) (rest : List (List Char)) :
    joinSegs (s :: t :: rest) = s ++ '/' :: joinSegs (t :: rest) := rfl

theorem splitOnSlash_append_slash (l : List Char) :
    splitOnSlash (l ++ ['/']) = splitOnSlash l ++ [[]] := by
  induction l with
  | nil => rfl
  | cons c rest ih =>
    by_cases hc : c = '/'
    · subst hc
      rw [List.cons_append, splitOnSlash, if_pos rfl, ih, splitOnSlash, if_pos rfl]
      rfl
    · rw [List.cons_append, splitOnSlash, if_neg hc, splitOnSlash, if_neg hc, ih]
      cases hsplit : splitOnSlash rest with
      | nil => exact absurd hsplit (splitOnSlash_ne_nil rest)
      | cons s ss => simp

theorem joinSegs_ne_nil {segs : List (List Char)}
    (hne : segs ≠ []) (h : ∀ s ∈ segs, validSeg s = true) :
    joinSegs segs ≠ [] := by
  match segs, hne with
  | [s], _ =>
    exact validSeg_ne_nil (h s (by simp))
  | s :: t :: rest, _ =>
    rw [joinSegs_cons]
    have := validSeg_ne_nil (h s (by simp))
    intro hcons
    exact this (List.append_eq_nil.mp hcons).1

theorem splitOnSlash_joinSegs {segs : List (List Char)} (hne : segs ≠ [])
    (h : ∀ s ∈ segs, validSeg s = true) :
    splitOnSlash (joinSegs segs) = segs := by
  match segs, hne with
  | [s], _ =>
    exact splitOnSlash_no_slash (validSeg_no_slash (h s (by simp)))
  | s :: t :: rest, _ =>
    rw [joinSegs_cons]
    rw [splitOnSlash_append (validSeg_no_slash (h s (by simp)))]
    rw [splitOnSlash_joinSegs (by simp) (fun u hu => h u (List.mem_cons_of_mem s hu))]

theorem joinSegs_append {a b : List (List Char)} (ha : a ≠ []) (hb : b ≠ []) :
    joinSegs (a ++ b) = joinSegs a ++ '/' :: joinSegs b := by
  match a, ha with
  | [s], _ =>
    match b, hb with
    | u :: rest, _ => rfl
  | s :: t :: rest, _ =>
    have h1 : (s :: t :: rest) ++ b = s :: t :: (rest ++ b) := rfl
    rw [h1, joinSegs_cons]
    have h2 : t :: (rest ++ b) = (t :: rest) ++ b := rfl
    rw [h2]
    rw [joinSegs_append (show t :: rest ≠ [] by simp) hb]
    rw [joinSegs_cons]
    simp

theorem procSegs_nil (rooted : Bool) (stack : List (List Char)) :
    procSegs rooted stack [] = stack.reverse := by
  rw [procSegs.eq_def]

theorem procSegs_cons (rooted : Bool) (stack : List (List Char)) (s : List Char)
    (rest : List (List Char)) :
    procSegs rooted stack (s :: rest) =
      if s = [] ∨ s = dotSeg then procSegs rooted stack rest
      else if s = dotDotSeg then
        match stack with
        | t :: ts =>
          if t = dotDotSeg then procSegs rooted (dotDotSeg :: t :: ts) rest
          else procSegs rooted ts rest
        | [] =>
          if rooted then procSegs rooted [] rest
          else procSegs rooted [dotDotSeg] rest
      else procSegs rooted (s :: stack) rest := by
  rw [procSegs.eq_def]

/-- Processing segments that are each empty or valid just filters out
the empty chunks. -/
theorem procSegs_valid (rooted : Bool) :
    ∀ (segs stack : List (List Char)),
      (∀ s ∈ segs, s = [] ∨ validSeg s = true) →
      procSegs rooted stack segs = stack.reverse ++ segs.filter (· ≠ []) := by
  intro segs
  induction segs with
  | nil =>
    intro stack h
    simp [procSegs_nil]
  | cons s rest ih =>
    intro stack h
    rcases h s (by simp) with hs | hs
    · subst hs
      rw [procSegs_cons, if_pos (Or.inl rfl)]
      rw [ih stack (fun u hu => h u (List.mem_cons_of_mem _ hu))]
      simp
    · obtain ⟨hdot, hdotdot⟩ := validSeg_ne_dot hs
      rw [procSegs_cons, if_neg (by simp [validSeg_ne_nil hs, hdot]), if_neg hdotdot]
      rw [ih (s :: stack) (fun u hu => h u (List.mem_cons_of_mem _ hu))]
      simp [validSeg_ne_nil hs]

theorem goClean_absOfSegs {segs : List (List Char)}
    (h : ∀ s ∈ segs, validSeg s = true) :
    goClean (absOfSegs segs) = absOfSegs segs := by
  cases segs with
  | nil => rfl
  | cons s rest =>
    rw [absOfSegs, goClean.eq_def]
    simp only [if_pos rfl]
    rw [splitOnSlash, if_pos rfl]
    rw [splitOnSlash_joinSegs (by simp) h]
    rw [procSegs_cons, if_pos (Or.inl rfl)]
    rw [procSegs_valid _ _ _ (fun u hu => Or.inr (h u hu))]
    rw [List.filter_eq_self.mpr (fun u hu => by simp [validSeg_ne_nil (h u hu)])]
    rfl

theorem goClean_absOfSegs_slash {segs : List (List Char)}
    (h : ∀ s ∈ segs, validSeg s = true) :
    goClean (absOfSegs segs ++ ['/']) = absOfSegs segs := by
  cases segs with
  | nil => rfl
  | cons s rest =>
    rw [absOfSegs, goClean.eq_def]
    simp only [List.cons_append, if_pos rfl]
    rw [show (joinSegs (s :: rest)) ++ ['/'] = joinSegs (s :: rest) ++ ['/'] from rfl]
    rw [splitOnSlash, if_pos rfl]
    rw [splitOnSlash_append_slash]
    rw [splitOnSlash_joinSegs (by simp) h]
    rw [procSegs_cons, if_pos (Or.inl rfl)]
    rw [procSegs_valid _ _ _ (by
      intro u hu
      rcases List.mem_append.mp hu with hu | hu
      · exact Or.inr (h u hu)
      · simp at hu
        exact Or.inl hu)]
    rw [List.filter_append]
    rw [List.filter_eq_self.mpr (fun u hu => by simp [validSeg_ne_nil (h u hu)])]
    simp [absOfSegs]

theorem resolveSegs_absOfSegs {segs : List (List Char)}
    (h : ∀ s ∈ segs, validSeg s = true) :
    resolveSegs (absOfSegs segs) = segs := by
  cases segs with
  | nil => rfl
  | cons s rest =>
    rw [absOfSegs, resolveSegs, splitOnSlash, if_pos rfl]
    rw [splitOnSlash_joinSegs (by simp) h]
    rw [List.filter_cons]
    norm_num
    exact ⟨validSeg_ne_nil (h s (by simp)),
      fun a ha => validSeg_ne_nil (h a (List.mem_cons_of_mem _ ha))⟩

theorem goJoin_abs_rel {W S : List (List Char)}
    (hWne : W ≠ []) (hW : ∀ s ∈ W, validSeg s = true)
    (hSne : S ≠ []) (hS : ∀ s ∈ S, validSeg s = true) :
    goJoin (absOfSegs W) (joinSegs S) = absOfSegs (W ++ S) := by
  have hb : joinSegs S ≠ [] := joinSegs_ne_nil hSne hS
  rw [goJoin, if_neg (by simp [absOfSegs]), if_neg (by simp [absOfSegs]), if_neg hb]
  have hsplit : absOfSegs W ++ '/' :: joinSegs S = absOfSegs (W ++ S) := by
    rw [absOfSegs, absOfSegs, joinSegs_append hWne hSne]
    simp
  rw [hsplit]
  exact goClean_absOfSegs (by
    intro u hu
    rcases List.mem_append.mp hu with hu | hu
    · exact hW u hu
    · exact hS u hu)

theorem goJoin_abs_rel_dir {W S : List (List Char)}
    (hWne : W ≠ []) (hW : ∀ s ∈ W, validSeg s = true)
    (hSne : S ≠ []) (hS : ∀ s ∈ S, validSeg s = true) :
    goJoin (absOfSegs W) (joinSegs S ++ ['/']) = absOfSegs (W ++ S) := by
  have hb : joinSegs S ++ ['/'] ≠ [] := by simp
  rw [goJoin, if_neg (by simp [absOfSegs]), if_neg (by simp [absOfSegs]), if_neg hb]
  have hsplit : absOfSegs W ++ '/' :: (joinSegs S ++ ['/']) =
      absOfSegs (W ++ S) ++ ['/'] := by
    rw [absOfSegs, absOfSegs, joinSegs_append hWne hSne]
    simp
  rw [hsplit]
  exact goClean_absOfSegs_slash (by
    intro u hu
    rcases List.mem_append.mp hu with hu | hu
    · exact hW u hu
    · exact hS u hu)

theorem takeWhile_append_stop {p : Char → Bool} {l r : List Char} {y : Char}
    (hl : ∀ c ∈ l, p c = true) (hy : p y = false) :
    (l ++ y :: r).takeWhile p = l := by
  induction l with
  | nil => simp [List.takeWhile_cons, hy]
  | cons c t ih =>
    rw [List.cons_append, List.takeWhile_cons, hl c (by simp)]
    rw [ih (fun u hu => hl u (List.mem_cons_of_mem _ hu))]
    simp

/-- Every path of this development's shape splits as `pre ++ '/' :: x`
with `x` the last segment. -/
theorem absOfSegs_snoc (W : List (List Char)) (x : List Char) :
    ∃ pre, absOfSegs (W ++ [x]) = pre ++ '/' :: x ∧
      (W = [] ∧ pre = [] ∨ W ≠ [] ∧ pre = absOfSegs W) := by
  cases hW : W with
  | nil =>
    refine ⟨[], ?_, Or.inl ⟨rfl, rfl⟩⟩
    rfl
  | cons w ws =>
    refine ⟨absOfSegs (w :: ws), ?_, Or.inr ⟨by simp, rfl⟩⟩
    rw [absOfSegs, absOfSegs, joinSegs_append (by simp) (by simp)]
    simp
    rfl

theorem goBase_pre_slash {pre x : List Char} (hx : validSeg x = true) :
    goBase (pre ++ '/' :: x) = x := by
  have hxn : x ≠ [] := validSeg_ne_nil hx
  have hxs : '/' ∉ x := validSeg_no_slash hx
  rw [goBase, if_neg (by simp)]
  have hrev : (pre ++ '/' :: x).reverse = x.reverse ++ '/' :: pre.reverse := by
    simp
  rw [hrev]
  obtain ⟨c, t, hct⟩ : ∃ c t, x.reverse = c :: t := by
    cases hre : x.reverse with
    | nil => exact absurd (by simpa using congrArg List.reverse hre) hxn
    | cons c t => exact ⟨c, t, rfl⟩
  have hc : c ≠ '/' := by
    intro hceq
    apply hxs
    have : c ∈ x.reverse := by rw [hct]; simp
    rw [hceq] at this
    exact List.mem_reverse.mp this
  rw [hct, List.cons_append, List.dropWhile_cons]
  simp only [decide_eq_true_eq, hc, if_false]
  rw [if_neg (by simp)]
  rw [show (c :: (t ++ '/' :: pre.reverse)) = (c :: t) ++ '/' :: pre.reverse from rfl]
  rw [takeWhile_append_stop (by
      intro u hu
      rw [← hct] at hu
      simp only [decide_eq_true_eq]
      intro hueq
      exact hxs (hueq ▸ List.mem_reverse.mp hu))
    (by simp)]
  rw [← hct, List.reverse_reverse]

theorem goBase_absOfSegs {W : List (List Char)} {x : List Char}
    (hx : validSeg x = true) :
    goBase (absOfSegs (W ++ [x])) = x := by
  obtain ⟨pre, hpre, -⟩ := absOfSegs_snoc W x
  rw [hpre]
  exact goBase_pre_slash hx

theorem goDir_absOfSegs {W : List (List Char)} {x : List Char}
    (hW : ∀ s ∈ W, validSeg s = true) (hx : validSeg x = true) :
    goDir (absOfSegs (W ++ [x])) = absOfSegs W := by
  have hxn : x ≠ [] := validSeg_ne_nil hx
  have hxs : '/' ∉ x := validSeg_no_slash hx
  obtain ⟨pre, hpre, hcase⟩ := absOfSegs_snoc W x
  rw [hpre, goDir]
  have hrev : (pre ++ '/' :: x).reverse = x.reverse ++ '/' :: pre.reverse := by
    simp
  rw [hrev]
  rw [takeWhile_append_stop (by
      intro u hu
      simp only [decide_eq_true_eq]
      intro hueq
      exact hxs (hueq ▸ List.mem_reverse.mp hu))
    (by simp)]
  simp only [List.length_reverse, List.length_append, List.length_cons]
  rw [if_neg (by omega)]
  have htake : (pre ++ '/' :: x).take (pre.length + 1 + x.length - x.length) =
      pre ++ ['/'] := by
    rw [show pre.length + 1 + x.length - x.length = pre.length + 1 from by omega]
    rw [show pre ++ '/' :: x = (pre ++ ['/']) ++ x from by simp]
    rw [List.take_append_of_le_length (by simp)]
    simp
  rw [show pre.length + (x.length + 1) = pre.length + 1 + x.length from by omega, htake]
  rcases hcase with ⟨hWnil, hprenil⟩ | ⟨hWne, hpreval⟩
  · rw [hprenil, hWnil]
    rfl
  · rw [hpreval]
    exact goClean_absOfSegs_slash hW

theorem trimSuffix_append (x suf : List Char) :
    trimSuffix (x ++ suf) suf = x := by
  rw [trimSuffix, if_pos (by rw [List.isSuffixOf_iff_suffix]; exact ⟨x, rfl⟩)]
  simp

theorem goAbs_abs {cwd p : List Char} (h : isAbs p = true) :
    goAbs cwd p = goClean p := by
  rw [goAbs, if_pos h]

theorem isAbs_absOfSegs (segs : List (List Char)) :
    isAbs (absOfSegs segs) = true := rfl

/-! ## Filesystem lemmas

`setNodeAt` replaces the node at a path; every filesystem operation of
the model reduces to a local transformation of a subtree through it. -/

def setNodeAt (fs : Node) (P : List (List Char)) (n' : Node) : Node :=
  match P, fs with
  | [], _ => n'
  | x :: rest, .dir nm m cs =>
    match findChild cs x with
    | some c => .dir nm m (replaceChild cs x (setNodeAt c rest n'))
    | none => .dir nm m cs
  | _ :: _, .file nm m c => .file nm m c

theorem findChild_name {cs : List Node} {x : List Char} {c : Node}
    (h : findChild cs x = some c) : c.nameOf = x := by
  induction cs with
  | nil => simp [findChild] at h
  | cons d rest ih =>
    rw [findChild] at h
    split at h
    · cases h
      assumption
    · exact ih h

theorem findChild_append_of_none {cs : List Node} {x : List Char} {ch : Node}
    (h : findChild cs x = none) :
    findChild (cs ++ [ch]) x = if ch.nameOf = x then some ch else none := by
  induction cs with
  | nil => simp [findChild]
  | cons d rest ih =>
    rw [findChild] at h
    rw [List.cons_append, findChild]
    split at h
    · cases h
    · rw [if_neg (by assumption)]
      exact ih h

theorem findChild_append_of_some {cs : List Node} {x : List Char} {c ch : Node}
    (h : findChild cs x = some c) : findChild (cs ++ [ch]) x = some c := by
  induction cs with
  | nil => simp [findChild] at h
  | cons d rest ih =>
    rw [findChild] at h
    rw [List.cons_append, findChild]
    split at h
    · rw [if_pos (by assumption)]
      exact h
    · rw [if_neg (by assumption)]
      exact ih h

theorem findChild_filter_of_none {cs : List Node} {x : List Char}
    (p : Node → Bool) (h : findChild cs x = none) :
    findChild (cs.filter p) x = none := by
  induction cs with
  | nil => simp [findChild]
  | cons d rest ih =>
    rw [findChild] at h
    split at h
    · cases h
    · rw [List.filter_cons]
      split
      · rw [findChild, if_neg (by assumption)]
        exact ih h
      · exact ih h

theorem replaceChild_self {cs : List Node} {x : List Char} {c : Node}
    (h : findChild cs x = some c) : replaceChild cs x c = cs := by
  induction cs with
  | nil => rfl
  | cons d rest ih =>
    rw [findChild] at h
    rw [replaceChild]
    split at h
    · rw [if_pos (by assumption)]
      cases h
      rfl
    · rw [if_neg (by assumption), ih h]

theorem replaceChild_append_fresh {cs : List Node} {x : List Char} {ch b : Node}
    (h : findChild cs x = none) (hch : ch.nameOf = x) :
    replaceChild (cs ++ [ch]) x b = cs ++ [b] := by
  induction cs with
  | nil => simp [replaceChild, hch]
  | cons d rest ih =>
    rw [findChild] at h
    split at h
    · cases h
    · rw [List.cons_append, replaceChild, if_neg (by assumption), ih h]
      rfl

theorem findChild_replaceChild {cs : List Node} {x : List Char} {c b : Node}
    (h : findChild cs x = some c) (hb : b.nameOf = x) :
    findChild (replaceChild cs x b) x = some b := by
  induction cs with
  | nil => simp [findChild] at h
  | cons d rest ih =>
    rw [findChild] at h
    rw [replaceChild]
    split at h
    · rw [if_pos (by assumption), findChild, if_pos hb]
    · rw [if_neg (by assumption), findChild, if_neg (by assumption)]
      exact ih h

theorem replaceChild_replaceChild {cs : List Node} {x : List Char} {c a b : Node}
    (h : findChild cs x = some c) (ha : a.nameOf = x) :
    replaceChild (replaceChild cs x a) x b = replaceChild cs x b := by
  induction cs with
  | nil => rfl
  | cons d rest ih =>
    rw [findChild] at h
    split at h
    · rw [replaceChild, if_pos (by assumption), replaceChild, if_pos ha,
        replaceChild, if_pos (by assumption)]
    · rw [replaceChild, if_neg (by assumption), replaceChild, if_neg (by assumption),
        replaceChild, if_neg (by assumption), ih h]

theorem setNodeAt_nil (fs n' : Node) : setNodeAt fs [] n' = n' := by
  cases fs <;> rfl

theorem setNodeAt_nameOf {fs n' : Node} {P : List (List Char)} (hP : P ≠ []) :
    (setNodeAt fs P n').nameOf = fs.nameOf := by
  match P, hP with
  | x :: rest, _ =>
    cases fs with
    | file nm m c => rfl
    | dir nm m cs =>
      rw [setNodeAt]
      split <;> rfl

theorem lookupN_dir_cons {cs : List Node} {x : List Char} {c : Node}
    (hfc : findChild cs x = some c) (nm : List Char) (m : Nat)
    (rest : List (List Char)) :
    lookupN (.dir nm m cs) (x :: rest) = lookupN c rest := by
  simp [lookupN, hfc]

theorem lookupN_dir_cons_none {cs : List Node} {x : List Char}
    (hfc : findChild cs x = none) (nm : List Char) (m : Nat)
    (rest : List (List Char)) :
    lookupN (.dir nm m cs) (x :: rest) = none := by
  simp [lookupN, hfc]

theorem setNodeAt_dir_cons {cs : List Node} {x : List Char} {c : Node}
    (hfc : findChild cs x = some c) (nm : List Char) (m : Nat)
    (rest : List (List Char)) (n' : Node) :
    setNodeAt (.dir nm m cs) (x :: rest) n' =
      .dir nm m (replaceChild cs x (setNodeAt c rest n')) := by
  simp [setNodeAt, hfc]

theorem mkdirAllN_dir_cons {cs : List Node} {x : List Char} {c : Node}
    (hfc : findChild cs x = some c) (nm : List Char) (m : Nat)
    (rest : List (List Char)) :
    mkdirAllN (.dir nm m cs) (x :: rest) =
      .dir nm m (replaceChild cs x (mkdirAllN c rest)) := by
  simp [mkdirAllN, hfc]

theorem writeFileN_dir_cons2 {cs : List Node} {x : List Char} {c : Node}
    (hfc : findChild cs x = some c) (nm : List Char) (m : Nat)
    (y : List Char) (ys : List (List Char)) (mo : Nat) (co : List Nat) :
    writeFileN (.dir nm m cs) (x :: y :: ys) mo co =
      .dir nm m (replaceChild cs x (writeFileN c (y :: ys) mo co)) := by
  simp [writeFileN, hfc]

theorem appendFileN_dir_cons2 {cs : List Node} {x : List Char} {c : Node}
    (hfc : findChild cs x = some c) (nm : List Char) (m : Nat)
    (y : List Char) (ys : List (List Char)) (bts : List Nat) :
    appendFileN (.dir nm m cs) (x :: y :: ys) bts =
      .dir nm m (replaceChild cs x (appendFileN c (y :: ys) bts)) := by
  simp [appendFileN, hfc]

theorem removeAllN_dir_cons2 {cs : List Node} {x : List Char} {c : Node}
    (hfc : findChild cs x = some c) (nm : List Char) (m : Nat)
    (y : List Char) (ys : List (List Char)) :
    removeAllN (.dir nm m cs) (x :: y :: ys) =
      .dir nm m (replaceChild cs x (removeAllN c (y :: ys))) := by
  simp [removeAllN, hfc]

theorem lookupN_setNodeAt {fs n0 : Node} {P : List (List Char)}
    (h : lookupN fs P = some n0) {n' : Node} (hname : n'.nameOf = n0.nameOf)
    (R : List (List Char)) :
    lookupN (setNodeAt fs P n') (P ++ R) = lookupN n' R := by
  induction P generalizing fs with
  | nil =>
    rw [lookupN] at h
    cases h
    rw [setNodeAt_nil]
    rfl
  | cons x P' ih =>
    cases fs with
    | file nm m c => simp [lookupN] at h
    | dir nm m cs =>
      cases hfc : findChild cs x with
      | none => rw [lookupN_dir_cons_none hfc] at h; cases h
      | some c =>
        rw [lookupN_dir_cons hfc] at h
        have hAname : (setNodeAt c P' n').nameOf = x := by
          cases hP' : P' with
          | nil =>
            rw [hP'] at h
            rw [lookupN] at h
            cases h
            rw [setNodeAt_nil, hname]
            exact findChild_name hfc
          | cons y ys =>
            rw [setNodeAt_nameOf (by simp)]
            exact findChild_name hfc
        rw [setNodeAt_dir_cons hfc, List.cons_append,
          lookupN_dir_cons (findChild_replaceChild hfc hAname)]
        exact ih h

theorem setNodeAt_setNodeAt {fs n0 : Node} {P : List (List Char)}
    (h : lookupN fs P = some n0) {A : Node} (hname : A.nameOf = n0.nameOf)
    (R : List (List Char)) (B : Node) :
    setNodeAt (setNodeAt fs P A) (P ++ R) B = setNodeAt fs P (setNodeAt A R B) := by
  induction P generalizing fs with
  | nil =>
    rw [lookupN] at h
    cases h
    rw [setNodeAt_nil, setNodeAt_nil]
    rfl
  | cons x P' ih =>
    cases fs with
    | file nm m c => simp [lookupN] at h
    | dir nm m cs =>
      cases hfc : findChild cs x with
      | none => rw [lookupN_dir_cons_none hfc] at h; cases h
      | some c =>
        rw [lookupN_dir_cons hfc] at h
        have hAname : (setNodeAt c P' A).nameOf = x := by
          cases hP' : P' with
          | nil =>
            rw [hP'] at h
            rw [lookupN] at h
            cases h
            rw [setNodeAt_nil, hname]
            exact findChild_name hfc
          | cons y ys =>
            rw [setNodeAt_nameOf (by simp)]
            exact findChild_name hfc
        rw [setNodeAt_dir_cons hfc, List.cons_append,
          setNodeAt_dir_cons (findChild_replaceChild hfc hAname)]
        rw [replaceChild_replaceChild hfc hAname]
        rw [setNodeAt_dir_cons hfc, ih h]

theorem mkdirAllN_reduce {fs n0 : Node} {P : List (List Char)}
    (h : lookupN fs P = some n0) (R : List (List Char)) :
    mkdirAllN fs (P ++ R) = setNodeAt fs P (mkdirAllN n0 R) := by
  induction P generalizing fs with
  | nil =>
    rw [lookupN] at h
    cases h
    rw [setNodeAt_nil]
    rfl
  | cons x P' ih =>
    cases fs with
    | file nm m c => simp [lookupN] at h
    | dir nm m cs =>
      cases hfc : findChild cs x with
      | none => rw [lookupN_dir_cons_none hfc] at h; cases h
      | some c =>
        rw [lookupN_dir_cons hfc] at h
        rw [List.cons_append, mkdirAllN_dir_cons hfc, setNodeAt_dir_cons hfc, ih h]

theorem writeFileN_reduce {fs n0 : Node} {P : List (List Char)}
    (h : lookupN fs P = some n0) {R : List (List Char)} (hR : R ≠ [])
    (mo : Nat) (co : List Nat) :
    writeFileN fs (P ++ R) mo co = setNodeAt fs P (writeFileN n0 R mo co) := by
  induction P generalizing fs with
  | nil =>
    rw [lookupN] at h
    cases h
    rw [setNodeAt_nil]
    rfl
  | cons x P' ih =>
    cases fs with
    | file nm m c => simp [lookupN] at h
    | dir nm m cs =>
      cases hfc : findChild cs x with
      | none => rw [lookupN_dir_cons_none hfc] at h; cases h
      | some c =>
        rw [lookupN_dir_cons hfc] at h
        obtain ⟨y, ys, hPR⟩ : ∃ y ys, P' ++ R = y :: ys := by
          cases hx : P' ++ R with
          | nil => exact absurd (List.append_eq_nil.mp hx).2 hR
          | cons y ys => exact ⟨y, ys, rfl⟩
        have hcons : (x :: P') ++ R = x :: y :: ys := by
          rw [List.cons_append, hPR]
        rw [hcons, writeFileN_dir_cons2 hfc, setNodeAt_dir_cons hfc, ← hPR, ih h]

theorem appendFileN_reduce {fs n0 : Node} {P : List (List Char)}
    (h : lookupN fs P = some n0) {R : List (List Char)} (hR : R ≠ [])
    (bts : List Nat) :
    appendFileN fs (P ++ R) bts = setNodeAt fs P (appendFileN n0 R bts) := by
  induction P generalizing fs with
  | nil =>
    rw [lookupN] at h
    cases h
    rw [setNodeAt_nil]
    rfl
  | cons x P' ih =>
    cases fs with
    | file nm m c => simp [lookupN] at h
    | dir nm m cs =>
      cases hfc : findChild cs x with
      | none => rw [lookupN_dir_cons_none hfc] at h; cases h
      | some c =>
        rw [lookupN_dir_cons hfc] at h
        obtain ⟨y, ys, hPR⟩ : ∃ y ys, P' ++ R = y :: ys := by
          cases hx : P' ++ R with
          | nil => exact absurd (List.append_eq_nil.mp hx).2 hR
          | cons y ys => exact ⟨y, ys, rfl⟩
        have hcons : (x :: P') ++ R = x :: y :: ys := by
          rw [List.cons_append, hPR]
        rw [hcons, appendFileN_dir_cons2 hfc, setNodeAt_dir_cons hfc, ← hPR, ih h]

theorem removeAllN_reduce {fs n0 : Node} {P : List (List Char)}
    (h : lookupN fs P = some n0) {R : List (List Char)} (hR : R ≠ []) :
    removeAllN fs (P ++ R) = setNodeAt fs P (removeAllN n0 R) := by
  induction P generalizing fs with
  | nil =>
    rw [lookupN] at h
    cases h
    rw [setNodeAt_nil]
    rfl
  | cons x P' ih =>
    cases fs with
    | file nm m c => simp [lookupN] at h
    | dir nm m cs =>
      cases hfc : findChild cs x with
      | none => rw [lookupN_dir_cons_none hfc] at h; cases h
      | some c =>
        rw [lookupN_dir_cons hfc] at h
        obtain ⟨y, ys, hPR⟩ : ∃ y ys, P' ++ R = y :: ys := by
          cases hx : P' ++ R with
          | nil => exact absurd (List.append_eq_nil.mp hx).2 hR
          | cons y ys => exact ⟨y, ys, rfl⟩
        have hcons : (x :: P') ++ R = x :: y :: ys := by
          rw [List.cons_append, hPR]
        rw [hcons, removeAllN_dir_cons2 hfc, setNodeAt_dir_cons hfc, ← hPR, ih h]

theorem lookupN_one (a : List Char) (b : Nat) (cs : List Node) (x : List Char) :
    lookupN (.dir a b cs) [x] = findChild cs x := by
  cases hfc : findChild cs x with
  | none => rw [lookupN_dir_cons_none hfc]
  | some c => rw [lookupN_dir_cons hfc]; rfl

theorem mkdirAllN_dir_exists {t : Node} {R : List (List Char)}
    {a : List Char} {b : Nat} {cs : List Node}
    (h : lookupN t R = some (.dir a b cs)) : mkdirAllN t R = t := by
  induction R generalizing t with
  | nil =>
    rfl
  | cons x R' ih =>
    cases t with
    | file nm m c => simp [lookupN] at h
    | dir nm m cs0 =>
      cases hfc : findChild cs0 x with
      | none => rw [lookupN_dir_cons_none hfc] at h; cases h
      | some c =>
        rw [lookupN_dir_cons hfc] at h
        rw [mkdirAllN_dir_cons hfc, ih h, replaceChild_self hfc]

theorem mkdirAllN_one_fresh {a : List Char} {b : Nat} {cs : List Node}
    {x : List Char} (h : findChild cs x = none) :
    mkdirAllN (.dir a b cs) [x] = .dir a b (cs ++ [.dir x 511 []]) := by
  rw [mkdirAllN, h]
  rfl

theorem writeFileN_one_fresh {a : List Char} {b : Nat} {cs : List Node}
    {x : List Char} (h : findChild cs x = none) (mo : Nat) (co : List Nat) :
    writeFileN (.dir a b cs) [x] mo co = .dir a b (cs ++ [.file x mo co]) := by
  rw [writeFileN, h]

theorem appendFileN_one_file {a : List Char} {b fm : Nat} {cs : List Node}
    {x y : List Char} {fc : List Nat}
    (h : findChild cs x = some (.file y fm fc)) (bts : List Nat) :
    appendFileN (.dir a b cs) [x] bts =
      .dir a b (replaceChild cs x (.file x fm (fc ++ bts))) := by
  rw [appendFileN, h]

theorem removeAllN_one (a : List Char) (b : Nat) (cs : List Node) (x : List Char) :
    removeAllN (.dir a b cs) [x] = .dir a b (cs.filter (fun c => c.nameOf ≠ x)) :=
  rfl

/-! ## Walk, mirror and validity unfolding lemmas -/

theorem walkEntries_file (pre : List (List Char)) (nm : List Char) (m : Nat)
    (c : List Nat) :
    walkEntries pre (.file nm m c) = [⟨joinSegs (pre ++ [nm]), false, m, c⟩] := by
  rw [walkEntries]

theorem walkEntries_dir (pre : List (List Char)) (nm : List Char) (m : Nat)
    (cs : List Node) :
    walkEntries pre (.dir nm m cs) =
      ⟨joinSegs (pre ++ [nm]) ++ ['/'], true, m, []⟩ ::
        (cs.map (walkEntries (pre ++ [nm]))).flatten := by
  rw [walkEntries]
  simp

theorem mirror_file (nm : List Char) (m : Nat) (c : List Nat) :
    mirror (.file nm m c) = .file nm m c := by
  rw [mirror]

theorem mirror_dir (nm : List Char) (m : Nat) (cs : List Node) :
    mirror (.dir nm m cs) = .dir nm 511 (cs.map mirror) := by
  rw [mirror]
  simp

theorem mirror_nameOf (n : Node) : (mirror n).nameOf = n.nameOf := by
  cases n with
  | file nm m c => rw [mirror_file]
  | dir nm m cs => rw [mirror_dir]; rfl

theorem validNode_file (nm : List Char) (m : Nat) (c : List Nat) :
    validNode (.file nm m c) = validSeg nm := by
  rw [validNode]

theorem validNode_dir (nm : List Char) (m : Nat) (cs : List Node) :
    validNode (.dir nm m cs) =
      (validSeg nm && nodupNames cs && cs.all (fun c => validNode c)) := by
  rw [validNode]
  congr 1
  rw [Bool.eq_iff_iff, List.all_eq_true, List.all_eq_true]
  constructor
  · intro h c hc
    exact h ⟨c, hc⟩ (by simp)
  · intro h c hc
    exact h c.1 c.2

theorem validNode_nameOf {n : Node} (h : validNode n = true) :
    validSeg n.nameOf = true := by
  cases n with
  | file nm m c => rw [validNode_file] at h; exact h
  | dir nm m cs =>
    rw [validNode_dir] at h
    simp only [Bool.and_eq_true] at h
    exact h.1.1

theorem validNode_dir_parts {nm : List Char} {m : Nat} {cs : List Node}
    (h : validNode (.dir nm m cs) = true) :
    validSeg nm = true ∧ nodupNames cs = true ∧ ∀ c ∈ cs, validNode c = true := by
  rw [validNode_dir] at h
  simp only [Bool.and_eq_true, List.all_eq_true] at h
  exact ⟨h.1.1, h.1.2, h.2⟩

theorem nodupNames_cons {c : Node} {rest : List Node}
    (h : nodupNames (c :: rest) = true) :
    (∀ d ∈ rest, d.nameOf ≠ c.nameOf) ∧ nodupNames rest = true := by
  rw [nodupNames] at h
  simp only [Bool.and_eq_true, List.all_eq_true] at h
  refine ⟨fun d hd => ?_, h.2⟩
  have := h.1 d hd
  simpa using this

/-! ## The containment check on well-formed entries -/

theorem isPrefixOf_slash (x y : List Char) :
    (x ++ ['/']).isPrefixOf (x ++ '/' :: y) = true := by
  rw [List.isPrefixOf_iff_prefix]
  exact ⟨y, by simp⟩

theorem absOfSegs_append {W S : List (List Char)} (hWne : W ≠ []) (hSne : S ≠ []) :
    absOfSegs (W ++ S) = absOfSegs W ++ '/' :: joinSegs S := by
  rw [absOfSegs, absOfSegs, joinSegs_append hWne hSne]
  rfl

theorem escapesRoot_file_false {W S : List (List Char)}
    (hWne : W ≠ []) (hW : ∀ s ∈ W, validSeg s = true)
    (hSne : S ≠ []) (hS : ∀ s ∈ S, validSeg s = true) :
    escapesRoot (absOfSegs W) (joinSegs S) = false := by
  rw [escapesRoot, goJoin_abs_rel hWne hW hSne hS, goClean_absOfSegs hW,
    goClean_absOfSegs (by
      intro u hu
      rcases List.mem_append.mp hu with hu | hu
      · exact hW u hu
      · exact hS u hu)]
  rw [absOfSegs_append hWne hSne]
  simp [isPrefixOf_slash]

theorem escapesRoot_dir_false {W S : List (List Char)}
    (hWne : W ≠ []) (hW : ∀ s ∈ W, validSeg s = true)
    (hSne : S ≠ []) (hS : ∀ s ∈ S, validSeg s = true) :
    escapesRoot (absOfSegs W) (joinSegs S ++ ['/']) = false := by
  rw [escapesRoot, goJoin_abs_rel_dir hWne hW hSne hS, goClean_absOfSegs hW,
    goClean_absOfSegs (by
      intro u hu
      rcases List.mem_append.mp hu with hu | hu
      · exact hW u hu
      · exact hS u hu)]
  rw [absOfSegs_append hWne hSne]
  simp [isPrefixOf_slash]

theorem unzipEntriesM_append {folder : List Char} {es1 es2 : List Entry}
    {fs fs' : Node} (h : unzipEntriesM folder es1 fs = (.ok (), fs')) :
    unzipEntriesM folder (es1 ++ es2) fs = unzipEntriesM folder es2 fs' := by
  induction es1 generalizing fs with
  | nil =>
    rw [unzipEntriesM] at h
    cases h
    rfl
  | cons e rest ih =>
    rw [unzipEntriesM] at h
    split at h
    · cases h
    · rw [List.cons_append, unzipEntriesM]
      rw [if_neg (by assumption)]
      exact ih h

/-- Extracting the walk of a well-formed tree `n` into an existing
directory appends the `mirror` of `n` (directory modes forced to
`0o777`) as a new child, and every entry passes the containment
check. -/
theorem extract_walk :
    ∀ (k : Nat) (n : Node), sizeOf n ≤ k →
    ∀ (W pre : List (List Char)) (fs : Node) (a : List Char) (b : Nat) (cs : List Node),
      W ≠ [] → (∀ s ∈ W, validSeg s = true) → (∀ s ∈ pre, validSeg s = true) →
      validNode n = true →
      lookupN fs (W ++ pre) = some (.dir a b cs) →
      findChild cs n.nameOf = none →
      unzipEntriesM (absOfSegs W) (walkEntries pre n) fs =
        (.ok (), setNodeAt fs (W ++ pre) (.dir a b (cs ++ [mirror n]))) := by
  intro k
  induction k using Nat.strong_induction_on with
  | _ k IH =>
    intro n hk W pre fs a b cs hWne hW hpre hvn hlk hfresh
    cases n with
    | file nm m c =>
      rw [validNode_file] at hvn
      replace hfresh : findChild cs nm = none := hfresh
      have hSv : ∀ s ∈ pre ++ [nm], validSeg s = true := by
        intro u hu
        rcases List.mem_append.mp hu with hu | hu
        · exact hpre u hu
        · simp at hu
          subst hu
          exact hvn
      rw [walkEntries_file, unzipEntriesM]
      rw [if_neg (by
        rw [show (⟨joinSegs (pre ++ [nm]), false, m, c⟩ : Entry).name =
          joinSegs (pre ++ [nm]) from rfl]
        rw [escapesRoot_file_false hWne hW (by simp) hSv]
        simp)]
      rw [unzipEntriesM]
      have hstep : unzipStep (absOfSegs W) fs ⟨joinSegs (pre ++ [nm]), false, m, c⟩ =
          setNodeAt fs (W ++ pre) (.dir a b (cs ++ [.file nm m c])) := by
        rw [unzipStep]
        simp only [Bool.false_eq_true, if_false]
        rw [goJoin_abs_rel hWne hW (by simp) hSv]
        rw [show W ++ (pre ++ [nm]) = (W ++ pre) ++ [nm] from by simp]
        rw [goDir_absOfSegs (by
            intro u hu
            rcases List.mem_append.mp hu with hu | hu
            · exact hW u hu
            · exact hpre u hu)
          hvn]
        rw [resolveSegs_absOfSegs (by
          intro u hu
          rcases List.mem_append.mp hu with hu | hu
          · exact hW u hu
          · exact hpre u hu)]
        rw [mkdirAllN_dir_exists hlk]
        rw [resolveSegs_absOfSegs (by
          intro u hu
          rcases List.mem_append.mp hu with hu | hu
          · rcases List.mem_append.mp hu with hu | hu
            · exact hW u hu
            · exact hpre u hu
          · simp at hu
            subst hu
            exact hvn)]
        rw [writeFileN_reduce hlk (by simp) m c]
        rw [writeFileN_one_fresh hfresh]
      rw [hstep, mirror_file]
    | dir nm m cs' =>
      obtain ⟨hnm, hnodup, hkids⟩ := validNode_dir_parts hvn
      replace hfresh : findChild cs nm = none := hfresh
      have hWpre : ∀ s ∈ W ++ pre, validSeg s = true := by
        intro u hu
        rcases List.mem_append.mp hu with hu | hu
        · exact hW u hu
        · exact hpre u hu
      have hSv : ∀ s ∈ pre ++ [nm], validSeg s = true := by
        intro u hu
        rcases List.mem_append.mp hu with hu | hu
        · exact hpre u hu
        · simp at hu
          subst hu
          exact hnm
      have hprenm : ∀ s ∈ pre ++ [nm], validSeg s = true := hSv
      rw [walkEntries_dir, unzipEntriesM]
      rw [if_neg (by
        rw [show (⟨joinSegs (pre ++ [nm]) ++ ['/'], true, m, []⟩ : Entry).name =
          joinSegs (pre ++ [nm]) ++ ['/'] from rfl]
        rw [escapesRoot_dir_false hWne hW (by simp) hSv]
        simp)]
      have hstep : unzipStep (absOfSegs W) fs ⟨joinSegs (pre ++ [nm]) ++ ['/'], true, m, []⟩ =
          setNodeAt fs (W ++ pre) (.dir a b (cs ++ [.dir nm 511 []])) := by
        rw [unzipStep]
        simp only [if_true]
        rw [goJoin_abs_rel_dir hWne hW (by simp) hSv]
        rw [show W ++ (pre ++ [nm]) = (W ++ pre) ++ [nm] from by simp]
        rw [resolveSegs_absOfSegs (by
          intro u hu
          rcases List.mem_append.mp hu with hu | hu
          · exact hWpre u hu
          · simp at hu
            subst hu
            exact hnm)]
        rw [mkdirAllN_reduce hlk [nm]]
        rw [mkdirAllN_one_fresh hfresh]
      rw [hstep]
      have hsz : ∀ c₀ ∈ cs', sizeOf c₀ < k := by
        intro c₀ hc
        have h1 := List.sizeOf_lt_of_mem hc
        simp at hk
        omega
      have INNER : ∀ (cs₂ : List Node), (∀ c₀ ∈ cs₂, c₀ ∈ cs') →
          ∀ (done : List Node) (fsk : Node),
          nodupNames cs₂ = true →
          (∀ c₀ ∈ cs₂, findChild done c₀.nameOf = none) →
          fsk = setNodeAt fs (W ++ pre) (.dir a b (cs ++ [.dir nm 511 done])) →
          unzipEntriesM (absOfSegs W) ((cs₂.map (walkEntries (pre ++ [nm]))).flatten) fsk =
            (.ok (), setNodeAt fs (W ++ pre)
              (.dir a b (cs ++ [.dir nm 511 (done ++ cs₂.map mirror)]))) := by
        intro cs₂
        induction cs₂ with
        | nil =>
          intro _ done fsk _ _ hfsk
          rw [List.map_nil, List.flatten_nil, unzipEntriesM, hfsk]
          simp
        | cons c₀ cs₂' ih2 =>
          intro hmem done fsk hnd hdis hfsk
          have hc₀cs' : c₀ ∈ cs' := hmem c₀ (by simp)
          have hlkk : lookupN fsk (W ++ (pre ++ [nm])) = some (.dir nm 511 done) := by
            rw [hfsk, show W ++ (pre ++ [nm]) = (W ++ pre) ++ [nm] from by simp]
            rw [lookupN_setNodeAt hlk
              (show (Node.dir a b (cs ++ [Node.dir nm 511 done])).nameOf =
                (Node.dir a b cs).nameOf from rfl) [nm]]
            rw [lookupN_one]
            rw [findChild_append_of_none hfresh]
            rw [if_pos (show (Node.dir nm 511 done).nameOf = nm from rfl)]
          have hfirst := IH (sizeOf c₀) (hsz c₀ hc₀cs') c₀ (Nat.le_refl _)
            W (pre ++ [nm]) fsk nm 511 done hWne hW hprenm
            (hkids c₀ hc₀cs') hlkk (hdis c₀ (by simp))
          have hnewfs : setNodeAt fsk (W ++ (pre ++ [nm])) (.dir nm 511 (done ++ [mirror c₀])) =
              setNodeAt fs (W ++ pre)
                (.dir a b (cs ++ [.dir nm 511 (done ++ [mirror c₀])])) := by
            rw [hfsk, show W ++ (pre ++ [nm]) = (W ++ pre) ++ [nm] from by simp]
            rw [setNodeAt_setNodeAt hlk
              (show (Node.dir a b (cs ++ [Node.dir nm 511 done])).nameOf =
                (Node.dir a b cs).nameOf from rfl) [nm]]
            congr 1
            rw [setNodeAt_dir_cons (by
              rw [findChild_append_of_none hfresh]
              rw [if_pos (show (Node.dir nm 511 done).nameOf = nm from rfl)]) a b [] _]
            rw [setNodeAt_nil]
            rw [replaceChild_append_fresh hfresh
              (show (Node.dir nm 511 done).nameOf = nm from rfl)]
          rw [List.map_cons, List.flatten_cons]
          rw [unzipEntriesM_append (by rw [hfirst, hnewfs])]
          have hres := ih2 (fun c hc => hmem c (List.mem_cons_of_mem _ hc))
            (done ++ [mirror c₀])
            (setNodeAt fs (W ++ pre) (.dir a b (cs ++ [.dir nm 511 (done ++ [mirror c₀])])))
            (nodupNames_cons hnd).2
            (by
              intro c hc
              rw [findChild_append_of_none (hdis c (List.mem_cons_of_mem _ hc))]
              rw [if_neg (by
                rw [mirror_nameOf]
                intro hcontra
                exact (nodupNames_cons hnd).1 c hc hcontra.symm)])
            rfl
          rw [hres]
          simp
      have hfinal := INNER cs' (fun c hc => hc) [] _ hnodup
        (fun c _ => rfl) rfl
      rw [hfinal, mirror_dir]
      simp

/-! ## Small corollaries used by the branch computations -/

theorem lookupN_setNodeAt_self {fs n0 : Node} {P : List (List Char)}
    (h : lookupN fs P = some n0) {n' : Node} (hname : n'.nameOf = n0.nameOf) :
    lookupN (setNodeAt fs P n') P = some n' := by
  have := lookupN_setNodeAt h hname []
  rw [List.append_nil] at this
  rw [this]
  rfl

theorem setNodeAt_collapse {fs n0 : Node} {P : List (List Char)}
    (h : lookupN fs P = some n0) {A : Node} (hname : A.nameOf = n0.nameOf)
    (B : Node) :
    setNodeAt (setNodeAt fs P A) P B = setNodeAt fs P B := by
  have := setNodeAt_setNodeAt h hname [] B
  rw [List.append_nil] at this
  rw [this, setNodeAt_nil]

theorem filter_of_findChild_none {cs : List Node} {x : List Char}
    (h : findChild cs x = none) :
    cs.filter (fun c => c.nameOf ≠ x) = cs := by
  induction cs with
  | nil => rfl
  | cons c rest ih =>
    rw [findChild] at h
    split at h
    · cases h
    · rw [List.filter_cons, if_pos (by simpa using (by assumption : ¬ c.nameOf = x))]
      rw [ih h]

theorem validSeg_encSuffix {nm : List Char} (h : validSeg nm = true) :
    validSeg (nm ++ encSuffix) = true := by
  have h1 := validSeg_ne_nil h
  have h2 := validSeg_no_slash h
  simp only [validSeg, encSuffix, Bool.and_eq_true, decide_eq_true_eq, ne_eq]
  refine ⟨⟨⟨by simp, ?_⟩, ?_⟩, ?_⟩
  · intro hc
    have hmem : '/' ∈ nm ++ ['.', 'e', 'n', 'c'] := List.elem_iff.mp hc
    rcases List.mem_append.mp hmem with hc2 | hc2
    · exact h2 hc2
    · simp at hc2
  · intro hc
    have := congrArg List.length hc
    simp [dotSeg] at this
  · intro hc
    have := congrArg List.length hc
    simp [dotDotSeg] at this

theorem absOfSegs_snoc_append (A : List (List Char)) (x t : List Char) :
    absOfSegs (A ++ [x]) ++ t = absOfSegs (A ++ [x ++ t]) := by
  cases hA : A with
  | nil => simp [absOfSegs, joinSegs]
  | cons a as =>
    rw [absOfSegs, absOfSegs, joinSegs_append (by simp) (by simp),
      joinSegs_append (by simp) (by simp)]
    simp [joinSegs]

theorem goJoin_abs_single {W : List (List Char)} {x : List Char}
    (hWne : W ≠ []) (hW : ∀ s ∈ W, validSeg s = true) (hx : validSeg x = true) :
    goJoin (absOfSegs W) x = absOfSegs (W ++ [x]) := by
  have : x = joinSegs [x] := rfl
  rw [this]
  exact goJoin_abs_rel hWne hW (by simp) (by simpa using hx)

/-! ## Unfolding lemmas for the program models -/

theorem zipFolderM_ok {env : CryptoEnv} {io : IOOracle} {fs : Node}
    {folder zipName : List Char} {n : Node}
    (he : io.createZipErr = false)
    (hlk : lookupN fs (resolveSegs folder) = some n) :
    zipFolderM env io fs folder zipName =
      (.ok (), writeFileN fs (resolveSegs zipName) 438
        (env.zipEncode (walkEntries [] n))) := by
  rw [zipFolderM, he]
  simp only [Bool.false_eq_true, if_false]
  rw [hlk]

theorem encryptFileM_ok {env : CryptoEnv} {io : IOOracle} {fs : Node}
    {filename outName : List Char} {password key : List Nat}
    {fnm : List Char} {fm : Nat} {pt : List Nat}
    (hlk : lookupN fs (resolveSegs filename) = some (.file fnm fm pt))
    (e3 : io.saltErr = false)
    (hscr : env.scryptKey password (mkSalt io) scrypt_N scrypt_r scrypt_p
      scrypt_key_len = .ok key) :
    encryptFileM env io fs filename outName password =
      ((encAfterKey env io fs outName pt (mkSalt io) key).1,
       (encAfterKey env io fs outName pt (mkSalt io) key).2.1,
       Event.alloc .key :: (encAfterKey env io fs outName pt (mkSalt io) key).2.2 ++
         [.zero .saltBuf, .zero .key]) := by
  rw [encryptFileM, hlk]
  simp only [e3, Bool.false_eq_true, if_false]
  rw [hscr]

theorem encAfterKey_ok {env : CryptoEnv} {io : IOOracle} {fs : Node}
    {outName : List Char} {pt salt key : List Nat}
    (e4 : io.newCipherErr = false) (e5 : io.newGCMErr = false)
    (e6 : io.nonceErr = false) (e7 : io.createOutErr = false)
    (e8 : io.writeSaltErr = false) (e9 : io.writeNonceErr = false)
    (e10 : io.writeCtErr = false) :
    encAfterKey env io fs outName pt salt key =
      (.ok (), appendFileN (appendFileN (appendFileN
        (writeFileN fs (resolveSegs outName) 438 [])
        (resolveSegs outName) salt) (resolveSegs outName) (mkNonce io))
        (resolveSegs outName) (env.sealAEAD key (mkNonce io) pt), []) := by
  rw [encAfterKey]
  simp only [e4, e5, e6, e7, e8, e9, e10, Bool.false_eq_true, if_false]
theorem decryptFileM_read {env : CryptoEnv} {io : IOOracle} {fs : Node}
    {encName outName : List Char} {password : List Nat}
    {fnm : List Char} {fm : Nat} {data : List Nat}
    (hlk : lookupN fs (resolveSegs encName) = some (.file fnm fm data)) :
    decryptFileM env io fs encName outName password =
      ((decAfterRead env io fs outName data password).1,
       (decAfterRead env io fs outName data password).2.1,
       (decAfterRead env io fs outName data password).2.2 ++ [.zero .cipherBuf]) := by
  rw [decryptFileM, hlk]

theorem decAfterRead_parse {env : CryptoEnv} {io : IOOracle} {fs : Node}
    {outName : List Char} {data password : List Nat}
    {salt nonce ct : List Nat}
    (hp : parseContainer data = .ok (salt, nonce, ct)) {key : List Nat}
    (hscr : env.scryptKey password salt scrypt_N scrypt_r scrypt_p scrypt_key_len
      = .ok key) :
    decAfterRead env io fs outName data password =
      ((decAfterKey env io fs outName nonce ct key).1,
       (decAfterKey env io fs outName nonce ct key).2.1,
       Event.alloc .key :: (decAfterKey env io fs outName nonce ct key).2.2 ++
         [.zero .saltBuf, .zero .key]) := by
  rw [decAfterRead, hp]
  simp only [hscr]

theorem decAfterRead_panic {env : CryptoEnv} {io : IOOracle} {fs : Node}
    {outName : List Char} {data password : List Nat} {msg : List Char}
    (hp : parseContainer data = .panicked msg) :
    decAfterRead env io fs outName data password = (.panicked msg, fs, []) := by
  rw [decAfterRead, hp]

theorem decAfterKey_ok {env : CryptoEnv} {io : IOOracle} {fs : Node}
    {outName : List Char} {nonce ct key pt : List Nat}
    (e4 : io.newCipherErr = false) (e5 : io.newGCMErr = false)
    (hopen : env.openAEAD key nonce ct = some pt) :
    decAfterKey env io fs outName nonce ct key =
      ((decAfterOpen io fs outName pt).1,
       (decAfterOpen io fs outName pt).2.1,
       (decAfterOpen io fs outName pt).2.2 ++ [.zero .plainBuf]) := by
  rw [decAfterKey]
  simp only [e4, e5, Bool.false_eq_true, if_false]
  simp only [hopen]

theorem decAfterKey_authFail {env : CryptoEnv} {io : IOOracle} {fs : Node}
    {outName : List Char} {nonce ct key : List Nat}
    (e4 : io.newCipherErr = false) (e5 : io.newGCMErr = false)
    (hopen : env.openAEAD key nonce ct = none) :
    decAfterKey env io fs outName nonce ct key = (.err .authFailure, fs, []) := by
  rw [decAfterKey]
  simp only [e4, e5, Bool.false_eq_true, if_false]
  simp only [hopen]

theorem decAfterOpen_ok {io : IOOracle} {fs : Node} {outName : List Char}
    {pt : List Nat} (e11 : io.writeZipStageErr = false) :
    decAfterOpen io fs outName pt =
      (.ok (), writeFileN fs (resolveSegs outName) 420 pt, []) := by
  rw [decAfterOpen]
  simp only [e11, Bool.false_eq_true, if_false]

theorem unzipFolderM_entries {env : CryptoEnv} {fs : Node}
    {zipName folder : List Char} {fnm : List Char} {fm : Nat} {bytes : List Nat}
    {entries : List Entry}
    (hlk : lookupN fs (resolveSegs zipName) = some (.file fnm fm bytes))
    (hdec : env.zipDecode bytes = some entries) :
    unzipFolderM env fs zipName folder = unzipEntriesM folder entries fs := by
  rw [unzipFolderM, hlk]
  simp only [hdec]

theorem cliBranch_run {env : CryptoEnv} {io : IOOracle} {fs : Node}
    {f : List Char} {isDec : Bool}
    (e1 : io.mkdirTempErr = false) :
    cliBranch env io fs f isDec =
      ((cliAfterTemp env io
          (mkdirAllN fs (resolveSegs (goJoin (goAbs io.cwd (goDir f)) io.tempName)))
          f (goAbs io.cwd (goDir f))
          (goJoin (goAbs io.cwd (goDir f)) io.tempName) isDec).1,
       removeAllN (cliAfterTemp env io
          (mkdirAllN fs (resolveSegs (goJoin (goAbs io.cwd (goDir f)) io.tempName)))
          f (goAbs io.cwd (goDir f))
          (goJoin (goAbs io.cwd (goDir f)) io.tempName) isDec).2.1
         (resolveSegs (goJoin (goAbs io.cwd (goDir f)) io.tempName)),
       (cliAfterTemp env io
          (mkdirAllN fs (resolveSegs (goJoin (goAbs io.cwd (goDir f)) io.tempName)))
          f (goAbs io.cwd (goDir f))
          (goJoin (goAbs io.cwd (goDir f)) io.tempName) isDec).2.2) := by
  rw [cliBranch]
  simp only [e1, Bool.false_eq_true, if_false]

theorem cliAfterTemp_pw {env : CryptoEnv} {io : IOOracle} {fs : Node}
    {f wd temp : List Char} {isDec : Bool} {pw : List Nat}
    (hpw : io.passwordRes = .ok pw) :
    cliAfterTemp env io fs f wd temp isDec =
      ((if isDec then cliDecWork env io fs f wd temp pw
        else cliEncWork env io fs f wd temp pw).1,
       (if isDec then cliDecWork env io fs f wd temp pw
        else cliEncWork env io fs f wd temp pw).2.1,
       Event.alloc .password ::
         (if isDec then cliDecWork env io fs f wd temp pw
          else cliEncWork env io fs f wd temp pw).2.2 ++ [.zero .password]) := by
  rw [cliAfterTemp, hpw]
theorem cliEncWork_run {env : CryptoEnv} {io : IOOracle} {fs fs2 : Node}
    {f wd temp : List Char} {pw : List Nat}
    (hz : zipFolderM env io fs f (goJoin temp (goBase (f ++ encSuffix))) =
      (.ok (), fs2)) :
    cliEncWork env io fs f wd temp pw =
      encryptFileM env io fs2 (goJoin temp (goBase (f ++ encSuffix)))
        (f ++ encSuffix) pw := by
  rw [cliEncWork]
  simp only [hz]
/-- Net effect of `os.Create` followed by the three `Write` calls of
`encryptFile` on a fresh output path. -/
theorem containerWrites {fs : Node} {P : List (List Char)} {wnm : List Char}
    {wm : Nat} {cs0 : List Node} {x : List Char}
    (hlk : lookupN fs P = some (.dir wnm wm cs0))
    (hfresh : findChild cs0 x = none) (s1 s2 s3 : List Nat) :
    appendFileN (appendFileN (appendFileN
      (writeFileN fs (P ++ [x]) 438 []) (P ++ [x]) s1) (P ++ [x]) s2)
      (P ++ [x]) s3 =
      setNodeAt fs P (.dir wnm wm (cs0 ++ [.file x 438 (s1 ++ s2 ++ s3)])) := by
  have hxn : (Node.file x 438 ([] : List Nat)).nameOf = x := rfl
  have h0 : writeFileN fs (P ++ [x]) 438 [] =
      setNodeAt fs P (.dir wnm wm (cs0 ++ [.file x 438 []])) := by
    rw [writeFileN_reduce hlk (by simp) 438 [], writeFileN_one_fresh hfresh]
  rw [h0]
  have hname1 : (Node.dir wnm wm (cs0 ++ [Node.file x 438 ([] : List Nat)])).nameOf =
      (Node.dir wnm wm cs0).nameOf := rfl
  have hfc1 : findChild (cs0 ++ [Node.file x 438 ([] : List Nat)]) x =
      some (.file x 438 []) := by
    rw [findChild_append_of_none hfresh, if_pos hxn]
  have h1 : appendFileN (setNodeAt fs P (.dir wnm wm (cs0 ++ [.file x 438 []])))
      (P ++ [x]) s1 =
      setNodeAt fs P (.dir wnm wm (cs0 ++ [.file x 438 ([] ++ s1)])) := by
    rw [appendFileN_reduce (lookupN_setNodeAt_self hlk hname1) (by simp) s1]
    rw [appendFileN_one_file hfc1 s1]
    rw [replaceChild_append_fresh hfresh hxn]
    rw [setNodeAt_collapse hlk hname1]
  rw [h1]
  have hname2 : (Node.dir wnm wm (cs0 ++ [Node.file x 438 ([] ++ s1)])).nameOf =
      (Node.dir wnm wm cs0).nameOf := rfl
  have hfc2 : findChild (cs0 ++ [Node.file x 438 ([] ++ s1)]) x =
      some (.file x 438 ([] ++ s1)) := by
    rw [findChild_append_of_none hfresh,
      if_pos (show (Node.file x 438 ([] ++ s1)).nameOf = x from rfl)]
  have h2 : appendFileN (setNodeAt fs P (.dir wnm wm (cs0 ++ [.file x 438 ([] ++ s1)])))
      (P ++ [x]) s2 =
      setNodeAt fs P (.dir wnm wm (cs0 ++ [.file x 438 (([] ++ s1) ++ s2)])) := by
    rw [appendFileN_reduce (lookupN_setNodeAt_self hlk hname2) (by simp) s2]
    rw [appendFileN_one_file hfc2 s2]
    rw [replaceChild_append_fresh hfresh
      (show (Node.file x 438 ([] ++ s1)).nameOf = x from rfl)]
    rw [setNodeAt_collapse hlk hname2]
  rw [h2]
  have hname3 : (Node.dir wnm wm (cs0 ++ [Node.file x 438 (([] ++ s1) ++ s2)])).nameOf =
      (Node.dir wnm wm cs0).nameOf := rfl
  have hfc3 : findChild (cs0 ++ [Node.file x 438 (([] ++ s1) ++ s2)]) x =
      some (.file x 438 (([] ++ s1) ++ s2)) := by
    rw [findChild_append_of_none hfresh,
      if_pos (show (Node.file x 438 (([] ++ s1) ++ s2)).nameOf = x from rfl)]
  have h3 : appendFileN
      (setNodeAt fs P (.dir wnm wm (cs0 ++ [.file x 438 (([] ++ s1) ++ s2)])))
      (P ++ [x]) s3 =
      setNodeAt fs P (.dir wnm wm (cs0 ++ [.file x 438 ((([] ++ s1) ++ s2) ++ s3)])) := by
    rw [appendFileN_reduce (lookupN_setNodeAt_self hlk hname3) (by simp) s3]
    rw [appendFileN_one_file hfc3 s3]
    rw [replaceChild_append_fresh hfresh
      (show (Node.file x 438 (([] ++ s1) ++ s2)).nameOf = x from rfl)]
    rw [setNodeAt_collapse hlk hname3]
  rw [h3]
  simp
/-- Successful run of the encrypt branch. -/
theorem encBranch_run (env : CryptoEnv) (io : IOOracle)
    {W : List (List Char)} {nm : List Char} {fs : Node}
    {wnm : List Char} {wm : Nat} {wcs : List Node} {D : Node} {pw key : List Nat}
    (hWne : W ≠ []) (hWv : ∀ s ∈ W, validSeg s = true)
    (hnmv : validSeg nm = true)
    (hlkW : lookupN fs W = some (.dir wnm wm wcs))
    (hD : findChild wcs nm = some D)
    (htv : validSeg io.tempName = true)
    (htfresh : findChild wcs io.tempName = none)
    (hofresh : findChild wcs (nm ++ encSuffix) = none)
    (htne : io.tempName ≠ nm ++ encSuffix)
    (hpw : io.passwordRes = .ok pw)
    (hscr : env.scryptKey pw (mkSalt io) scrypt_N scrypt_r scrypt_p scrypt_key_len
      = .ok key)
    (e1 : io.mkdirTempErr = false) (e2 : io.createZipErr = false)
    (e3 : io.saltErr = false) (e4 : io.newCipherErr = false)
    (e5 : io.newGCMErr = false) (e6 : io.nonceErr = false)
    (e7 : io.createOutErr = false) (e8 : io.writeSaltErr = false)
    (e9 : io.writeNonceErr = false) (e10 : io.writeCtErr = false) :
    cliBranch env io fs (absOfSegs (W ++ [nm])) false =
      (.ok (), setNodeAt fs W (.dir wnm wm (wcs ++
        [.file (nm ++ encSuffix) 438
          (serializeContainer (mkSalt io) (mkNonce io)
            (env.sealAEAD key (mkNonce io)
              (env.zipEncode (walkEntries [] D))))])),
       [Event.alloc .password, Event.alloc .key, Event.zero .saltBuf,
        Event.zero .key, Event.zero .password]) := by
  have hout : validSeg (nm ++ encSuffix) = true := validSeg_encSuffix hnmv
  have hWnm : ∀ s ∈ W ++ [nm], validSeg s = true := by
    intro u hu
    rcases List.mem_append.mp hu with hu | hu
    · exact hWv u hu
    · simp at hu
      subst hu
      exact hnmv
  have hWt : ∀ s ∈ W ++ [io.tempName], validSeg s = true := by
    intro u hu
    rcases List.mem_append.mp hu with hu | hu
    · exact hWv u hu
    · simp at hu
      subst hu
      exact htv
  have hwd : goAbs io.cwd (goDir (absOfSegs (W ++ [nm]))) = absOfSegs W := by
    rw [goDir_absOfSegs hWv hnmv, goAbs_abs (isAbs_absOfSegs W),
      goClean_absOfSegs hWv]
  have htemp : goJoin (absOfSegs W) io.tempName = absOfSegs (W ++ [io.tempName]) :=
    goJoin_abs_single hWne hWv htv
  have hrt : resolveSegs (absOfSegs (W ++ [io.tempName])) = W ++ [io.tempName] :=
    resolveSegs_absOfSegs hWt
  -- staging directory creation
  have hfs1 : mkdirAllN fs (W ++ [io.tempName]) =
      setNodeAt fs W (.dir wnm wm (wcs ++ [.dir io.tempName 511 []])) := by
    rw [mkdirAllN_reduce hlkW [io.tempName], mkdirAllN_one_fresh htfresh]
  have houtput : absOfSegs (W ++ [nm]) ++ encSuffix =
      absOfSegs (W ++ [nm ++ encSuffix]) := absOfSegs_snoc_append W nm encSuffix
  have hbase : goBase (absOfSegs (W ++ [nm ++ encSuffix])) = nm ++ encSuffix :=
    goBase_absOfSegs hout
  have hzf : goJoin (absOfSegs (W ++ [io.tempName])) (nm ++ encSuffix) =
      absOfSegs (W ++ [io.tempName] ++ [nm ++ encSuffix]) :=
    goJoin_abs_single (by simp) hWt hout
  have hrzf : resolveSegs (absOfSegs (W ++ [io.tempName] ++ [nm ++ encSuffix])) =
      W ++ [io.tempName, nm ++ encSuffix] := by
    rw [resolveSegs_absOfSegs (by
      intro u hu
      rcases List.mem_append.mp hu with hu | hu
      · exact hWt u hu
      · simp at hu
        subst hu
        exact hout)]
    simp
  -- name shorthands
  have hlkfs1W : lookupN (setNodeAt fs W (.dir wnm wm (wcs ++ [.dir io.tempName 511 []]))) W
      = some (.dir wnm wm (wcs ++ [.dir io.tempName 511 []])) :=
    lookupN_setNodeAt_self hlkW rfl
  have hlkfs1f : lookupN (setNodeAt fs W (.dir wnm wm (wcs ++ [.dir io.tempName 511 []])))
      (W ++ [nm]) = some D := by
    rw [lookupN_setNodeAt hlkW
      (show (Node.dir wnm wm (wcs ++ [Node.dir io.tempName 511 []])).nameOf =
        (Node.dir wnm wm wcs).nameOf from rfl) [nm],
      lookupN_one, findChild_append_of_some hD]
  have hfc_t : findChild (wcs ++ [Node.dir io.tempName 511 []]) io.tempName =
      some (.dir io.tempName 511 []) := by
    rw [findChild_append_of_none htfresh,
      if_pos (show (Node.dir io.tempName 511 []).nameOf = io.tempName from rfl)]
  -- the staged zip write inside the temp directory
  have hwrite_staged : writeFileN
      (setNodeAt fs W (.dir wnm wm (wcs ++ [.dir io.tempName 511 []])))
      (W ++ [io.tempName, nm ++ encSuffix]) 438 (env.zipEncode (walkEntries [] D)) =
      setNodeAt fs W (.dir wnm wm (wcs ++ [.dir io.tempName 511
        [.file (nm ++ encSuffix) 438 (env.zipEncode (walkEntries [] D))]])) := by
    rw [show W ++ [io.tempName, nm ++ encSuffix] =
      W ++ ([io.tempName] ++ [nm ++ encSuffix]) from by simp]
    rw [writeFileN_reduce hlkfs1W (by simp) 438 (env.zipEncode (walkEntries [] D))]
    rw [show ([io.tempName] ++ [nm ++ encSuffix]) = io.tempName :: [nm ++ encSuffix]
      from rfl]
    rw [writeFileN_dir_cons2 hfc_t]
    rw [writeFileN_one_fresh (show findChild ([] : List Node) (nm ++ encSuffix) = none
      from rfl)]
    rw [replaceChild_append_fresh htfresh
      (show (Node.dir io.tempName 511 []).nameOf = io.tempName from rfl)]
    rw [setNodeAt_collapse hlkW
      (show (Node.dir wnm wm (wcs ++ [Node.dir io.tempName 511 []])).nameOf =
        (Node.dir wnm wm wcs).nameOf from rfl)]
    simp
  -- the zipFolder call
  have hzipcall : zipFolderM env io
      (setNodeAt fs W (.dir wnm wm (wcs ++ [.dir io.tempName 511 []])))
      (absOfSegs (W ++ [nm])) (absOfSegs (W ++ [io.tempName] ++ [nm ++ encSuffix])) =
      (.ok (), setNodeAt fs W (.dir wnm wm (wcs ++ [.dir io.tempName 511
        [.file (nm ++ encSuffix) 438 (env.zipEncode (walkEntries [] D))]]))) := by
    rw [zipFolderM_ok e2 (by rw [resolveSegs_absOfSegs hWnm]; exact hlkfs1f)]
    rw [hrzf, hwrite_staged]
  -- fix the zip call to use the unfold lemma
  have hlkfs2W : lookupN (setNodeAt fs W (.dir wnm wm (wcs ++ [.dir io.tempName 511
      [.file (nm ++ encSuffix) 438 (env.zipEncode (walkEntries [] D))]]))) W =
      some (.dir wnm wm (wcs ++ [.dir io.tempName 511
        [.file (nm ++ encSuffix) 438 (env.zipEncode (walkEntries [] D))]])) :=
    lookupN_setNodeAt_self hlkW rfl
  have hfc_t1 : findChild (wcs ++ [Node.dir io.tempName 511
      [.file (nm ++ encSuffix) 438 (env.zipEncode (walkEntries [] D))]]) io.tempName =
      some (.dir io.tempName 511
        [.file (nm ++ encSuffix) 438 (env.zipEncode (walkEntries [] D))]) := by
    rw [findChild_append_of_none htfresh, if_pos (show (Node.dir io.tempName 511
      [Node.file (nm ++ encSuffix) 438 (env.zipEncode (walkEntries [] D))]).nameOf =
      io.tempName from rfl)]
  have hlkstaged : lookupN (setNodeAt fs W (.dir wnm wm (wcs ++ [.dir io.tempName 511
      [.file (nm ++ encSuffix) 438 (env.zipEncode (walkEntries [] D))]])))
      (W ++ [io.tempName, nm ++ encSuffix]) =
      some (.file (nm ++ encSuffix) 438 (env.zipEncode (walkEntries [] D))) := by
    rw [show W ++ [io.tempName, nm ++ encSuffix] =
      W ++ ([io.tempName] ++ [nm ++ encSuffix]) from by simp]
    rw [lookupN_setNodeAt hlkW
      (show (Node.dir wnm wm (wcs ++ [Node.dir io.tempName 511
        [.file (nm ++ encSuffix) 438 (env.zipEncode (walkEntries [] D))]])).nameOf =
        (Node.dir wnm wm wcs).nameOf from rfl)]
    rw [show [io.tempName] ++ [nm ++ encSuffix] = io.tempName :: [nm ++ encSuffix]
      from rfl]
    rw [lookupN_dir_cons hfc_t1, lookupN_one, findChild,
      if_pos (show (Node.file (nm ++ encSuffix) 438
        (env.zipEncode (walkEntries [] D))).nameOf = nm ++ encSuffix from rfl)]
  have hfc_out1 : findChild (wcs ++ [Node.dir io.tempName 511
      [.file (nm ++ encSuffix) 438 (env.zipEncode (walkEntries [] D))]])
      (nm ++ encSuffix) = none := by
    rw [findChild_append_of_none hofresh, if_neg (by
      intro hc
      exact htne hc)]
  have houtres : resolveSegs (absOfSegs (W ++ [nm ++ encSuffix])) =
      W ++ [nm ++ encSuffix] := by
    rw [resolveSegs_absOfSegs (by
      intro u hu
      rcases List.mem_append.mp hu with hu | hu
      · exact hWv u hu
      · simp at hu
        subst hu
        exact hout)]
  -- the container write chain at the real output path
  have hwrites := containerWrites hlkfs2W hfc_out1
    (mkSalt io) (mkNonce io) (env.sealAEAD key (mkNonce io)
      (env.zipEncode (walkEntries [] D)))
  -- the staging directory removal
  have hrem : removeAllN (setNodeAt fs W (.dir wnm wm ((wcs ++ [.dir io.tempName 511
      [.file (nm ++ encSuffix) 438 (env.zipEncode (walkEntries [] D))]]) ++
      [.file (nm ++ encSuffix) 438 (mkSalt io ++ mkNonce io ++
        env.sealAEAD key (mkNonce io) (env.zipEncode (walkEntries [] D)))])))
      (W ++ [io.tempName]) =
      setNodeAt fs W (.dir wnm wm (wcs ++
        [.file (nm ++ encSuffix) 438 (mkSalt io ++ mkNonce io ++
          env.sealAEAD key (mkNonce io) (env.zipEncode (walkEntries [] D)))])) := by
    rw [removeAllN_reduce (lookupN_setNodeAt_self hlkW
      (show (Node.dir wnm wm ((wcs ++ [Node.dir io.tempName 511
        [.file (nm ++ encSuffix) 438 (env.zipEncode (walkEntries [] D))]]) ++
        [Node.file (nm ++ encSuffix) 438 (mkSalt io ++ mkNonce io ++
          env.sealAEAD key (mkNonce io) (env.zipEncode (walkEntries [] D)))])).nameOf =
        (Node.dir wnm wm wcs).nameOf from rfl)) (by simp)]
    rw [removeAllN_one]
    rw [setNodeAt_collapse hlkW (show (Node.dir wnm wm ((wcs ++ [Node.dir io.tempName 511
      [.file (nm ++ encSuffix) 438 (env.zipEncode (walkEntries [] D))]]) ++
      [Node.file (nm ++ encSuffix) 438 (mkSalt io ++ mkNonce io ++
        env.sealAEAD key (mkNonce io) (env.zipEncode (walkEntries [] D)))])).nameOf =
      (Node.dir wnm wm wcs).nameOf from rfl)]
    congr 2
    rw [List.filter_append, List.filter_append, filter_of_findChild_none htfresh]
    rw [show (([Node.dir io.tempName 511
      [.file (nm ++ encSuffix) 438 (env.zipEncode (walkEntries [] D))]] :
        List Node).filter (fun c => c.nameOf ≠ io.tempName)) = [] from by
      simp [List.filter_cons, Node.nameOf]]
    rw [show (([Node.file (nm ++ encSuffix) 438 (mkSalt io ++ mkNonce io ++
      env.sealAEAD key (mkNonce io) (env.zipEncode (walkEntries [] D)))] :
        List Node).filter (fun c => c.nameOf ≠ io.tempName)) =
      [Node.file (nm ++ encSuffix) 438 (mkSalt io ++ mkNonce io ++
        env.sealAEAD key (mkNonce io) (env.zipEncode (walkEntries [] D)))] from by
      simp [List.filter_cons, Node.nameOf]
      intro hc
      exact htne hc.symm]
    simp
  -- assemble the branch
  rw [cliBranch_run e1, hwd, htemp, hrt, hfs1]
  rw [cliAfterTemp_pw hpw]
  simp only [Bool.false_eq_true, if_false]
  rw [cliEncWork_run (by rw [houtput, hbase, hzf]; exact hzipcall)]
  rw [houtput, hbase, hzf]
  rw [encryptFileM_ok (by rw [hrzf]; exact hlkstaged) e3 hscr]
  rw [encAfterKey_ok e4 e5 e6 e7 e8 e9 e10]
  rw [houtres, hwrites]
  rw [setNodeAt_collapse hlkW (show (Node.dir wnm wm (wcs ++ [Node.dir io.tempName 511
    [.file (nm ++ encSuffix) 438 (env.zipEncode (walkEntries [] D))]])).nameOf =
    (Node.dir wnm wm wcs).nameOf from rfl)]
  rw [hrem]
  simp [serializeContainer]
theorem lookupN_append {fs n0 : Node} {P : List (List Char)}
    (h : lookupN fs P = some n0) (R : List (List Char)) :
    lookupN fs (P ++ R) = lookupN n0 R := by
  induction P generalizing fs with
  | nil =>
    rw [lookupN] at h
    cases h
    rfl
  | cons x P' ih =>
    cases fs with
    | file nm m c => simp [lookupN] at h
    | dir nm m cs =>
      cases hfc : findChild cs x with
      | none => rw [lookupN_dir_cons_none hfc] at h; cases h
      | some c =>
        rw [lookupN_dir_cons hfc] at h
        rw [List.cons_append, lookupN_dir_cons hfc]
        exact ih h

theorem cliDecWork_ok {env : CryptoEnv} {io : IOOracle} {fs fs1 fs2 : Node}
    {f wd temp : List Char} {pw : List Nat} {tr1 : List Event}
    (hstat : statN fs (resolveSegs (trimSuffix f encSuffix)) = false)
    (hdec : decryptFileM env io fs f
      (goJoin temp (goBase (trimSuffix f encSuffix))) pw = (.ok (), fs1, tr1))
    (hunzip : unzipFolderM env fs1
      (goJoin temp (goBase (trimSuffix f encSuffix))) wd = (.ok (), fs2)) :
    cliDecWork env io fs f wd temp pw = (.ok (), fs2, tr1) := by
  rw [cliDecWork]
  simp only [hstat, Bool.false_eq_true, if_false, hdec, hunzip]
/-- Successful run of the decrypt branch: the container at
`W/(nm ++ ".enc")` is decrypted and extracted, recreating `mirror D`
at `W/nm`. -/
theorem decBranch_run (env : CryptoEnv) (io : IOOracle)
    {W : List (List Char)} {nm : List Char} {fs2 : Node}
    {wnm : List Char} {wm fmode : Nat} {c2 : List Node} {D : Node}
    {pw salt nonce ct key ptB container : List Nat}
    (hWne : W ≠ []) (hWv : ∀ s ∈ W, validSeg s = true)
    (hnmv : validSeg nm = true)
    (hDval : validNode D = true) (hDnm : D.nameOf = nm)
    (hlkW : lookupN fs2 W = some (.dir wnm wm c2))
    (hcont : findChild c2 (nm ++ encSuffix) =
      some (.file (nm ++ encSuffix) fmode container))
    (houtab : findChild c2 nm = none)
    (htfresh : findChild c2 io.tempName = none)
    (htv : validSeg io.tempName = true)
    (htnenm : io.tempName ≠ nm)
    (hpw : io.passwordRes = .ok pw)
    (hparse : parseContainer container = .ok (salt, nonce, ct))
    (hscr : env.scryptKey pw salt scrypt_N scrypt_r scrypt_p scrypt_key_len
      = .ok key)
    (hopen : env.openAEAD key nonce ct = some ptB)
    (hzipdec : env.zipDecode ptB = some (walkEntries [] D))
    (e1 : io.mkdirTempErr = false) (e4 : io.newCipherErr = false)
    (e5 : io.newGCMErr = false) (e11 : io.writeZipStageErr = false) :
    cliBranch env io fs2 (absOfSegs (W ++ [nm ++ encSuffix])) true =
      (.ok (), setNodeAt fs2 W (.dir wnm wm (c2 ++ [mirror D])),
       [Event.alloc .password, Event.alloc .key, Event.zero .plainBuf,
        Event.zero .saltBuf, Event.zero .key, Event.zero .cipherBuf,
        Event.zero .password]) := by
  have hout : validSeg (nm ++ encSuffix) = true := validSeg_encSuffix hnmv
  have hWnm : ∀ s ∈ W ++ [nm], validSeg s = true := by
    intro u hu
    rcases List.mem_append.mp hu with hu | hu
    · exact hWv u hu
    · simp at hu
      subst hu
      exact hnmv
  have hWt : ∀ s ∈ W ++ [io.tempName], validSeg s = true := by
    intro u hu
    rcases List.mem_append.mp hu with hu | hu
    · exact hWv u hu
    · simp at hu
      subst hu
      exact htv
  have hWo : ∀ s ∈ W ++ [nm ++ encSuffix], validSeg s = true := by
    intro u hu
    rcases List.mem_append.mp hu with hu | hu
    · exact hWv u hu
    · simp at hu
      subst hu
      exact hout
  have hwd : goAbs io.cwd (goDir (absOfSegs (W ++ [nm ++ encSuffix]))) =
      absOfSegs W := by
    rw [goDir_absOfSegs hWv hout, goAbs_abs (isAbs_absOfSegs W),
      goClean_absOfSegs hWv]
  have htemp : goJoin (absOfSegs W) io.tempName = absOfSegs (W ++ [io.tempName]) :=
    goJoin_abs_single hWne hWv htv
  have hrt : resolveSegs (absOfSegs (W ++ [io.tempName])) = W ++ [io.tempName] :=
    resolveSegs_absOfSegs hWt
  have htrim : trimSuffix (absOfSegs (W ++ [nm ++ encSuffix])) encSuffix =
      absOfSegs (W ++ [nm]) := by
    rw [← absOfSegs_snoc_append W nm encSuffix, trimSuffix_append]
  have hbase : goBase (absOfSegs (W ++ [nm])) = nm := goBase_absOfSegs hnmv
  have hzf : goJoin (absOfSegs (W ++ [io.tempName])) nm =
      absOfSegs (W ++ [io.tempName] ++ [nm]) :=
    goJoin_abs_single (by simp) hWt hnmv
  have hrzf : resolveSegs (absOfSegs (W ++ [io.tempName] ++ [nm])) =
      W ++ [io.tempName, nm] := by
    rw [resolveSegs_absOfSegs (by
      intro u hu
      rcases List.mem_append.mp hu with hu | hu
      · exact hWt u hu
      · simp at hu
        subst hu
        exact hnmv)]
    simp
  have hfs1 : mkdirAllN fs2 (W ++ [io.tempName]) =
      setNodeAt fs2 W (.dir wnm wm (c2 ++ [.dir io.tempName 511 []])) := by
    rw [mkdirAllN_reduce hlkW [io.tempName], mkdirAllN_one_fresh htfresh]
  have hstat : statN (setNodeAt fs2 W (.dir wnm wm (c2 ++ [.dir io.tempName 511 []])))
      (resolveSegs (absOfSegs (W ++ [nm]))) = false := by
    rw [resolveSegs_absOfSegs hWnm, statN]
    rw [lookupN_setNodeAt hlkW
      (show (Node.dir wnm wm (c2 ++ [Node.dir io.tempName 511 []])).nameOf =
        (Node.dir wnm wm c2).nameOf from rfl) [nm]]
    rw [lookupN_one, findChild_append_of_none houtab,
      if_neg (show ¬ (Node.dir io.tempName 511 []).nameOf = nm from htnenm)]
    rfl
  have hlkcont : lookupN (setNodeAt fs2 W (.dir wnm wm (c2 ++ [.dir io.tempName 511 []])))
      (resolveSegs (absOfSegs (W ++ [nm ++ encSuffix]))) =
      some (.file (nm ++ encSuffix) fmode container) := by
    rw [resolveSegs_absOfSegs hWo]
    rw [lookupN_setNodeAt hlkW
      (show (Node.dir wnm wm (c2 ++ [Node.dir io.tempName 511 []])).nameOf =
        (Node.dir wnm wm c2).nameOf from rfl) [nm ++ encSuffix]]
    rw [lookupN_one, findChild_append_of_some hcont]
  -- the staged zip write of decryptFile
  have hfc_t : findChild (c2 ++ [Node.dir io.tempName 511 []]) io.tempName =
      some (.dir io.tempName 511 []) := by
    rw [findChild_append_of_none htfresh,
      if_pos (show (Node.dir io.tempName 511 []).nameOf = io.tempName from rfl)]
  have hwrite_staged : writeFileN
      (setNodeAt fs2 W (.dir wnm wm (c2 ++ [.dir io.tempName 511 []])))
      (W ++ [io.tempName, nm]) 420 ptB =
      setNodeAt fs2 W (.dir wnm wm (c2 ++ [.dir io.tempName 511
        [.file nm 420 ptB]])) := by
    rw [show W ++ [io.tempName, nm] = W ++ ([io.tempName] ++ [nm]) from by simp]
    rw [writeFileN_reduce (lookupN_setNodeAt_self hlkW
      (show (Node.dir wnm wm (c2 ++ [Node.dir io.tempName 511 []])).nameOf =
        (Node.dir wnm wm c2).nameOf from rfl)) (by simp) 420 ptB]
    rw [show ([io.tempName] ++ [nm]) = io.tempName :: [nm] from rfl]
    rw [writeFileN_dir_cons2 hfc_t]
    rw [writeFileN_one_fresh (show findChild ([] : List Node) nm = none from rfl)]
    rw [replaceChild_append_fresh htfresh
      (show (Node.dir io.tempName 511 []).nameOf = io.tempName from rfl)]
    rw [setNodeAt_collapse hlkW
      (show (Node.dir wnm wm (c2 ++ [Node.dir io.tempName 511 []])).nameOf =
        (Node.dir wnm wm c2).nameOf from rfl)]
    simp
  have hdecfile : decryptFileM env io
      (setNodeAt fs2 W (.dir wnm wm (c2 ++ [.dir io.tempName 511 []])))
      (absOfSegs (W ++ [nm ++ encSuffix])) (absOfSegs (W ++ [io.tempName] ++ [nm])) pw =
      (.ok (), setNodeAt fs2 W (.dir wnm wm (c2 ++ [.dir io.tempName 511
        [.file nm 420 ptB]])),
       [Event.alloc .key, Event.zero .plainBuf, Event.zero .saltBuf,
        Event.zero .key, Event.zero .cipherBuf]) := by
    rw [decryptFileM_read hlkcont]
    rw [decAfterRead_parse hparse hscr]
    rw [decAfterKey_ok e4 e5 hopen]
    rw [decAfterOpen_ok e11]
    rw [hrzf, hwrite_staged]
    simp
  -- the unzip call: read the staged zip, then extract the walk of D
  have hlkstaged : lookupN (setNodeAt fs2 W (.dir wnm wm (c2 ++ [.dir io.tempName 511
      [.file nm 420 ptB]]))) (W ++ [io.tempName, nm]) =
      some (.file nm 420 ptB) := by
    rw [show W ++ [io.tempName, nm] = W ++ ([io.tempName] ++ [nm]) from by simp]
    rw [lookupN_setNodeAt hlkW
      (show (Node.dir wnm wm (c2 ++ [Node.dir io.tempName 511
        [.file nm 420 ptB]])).nameOf = (Node.dir wnm wm c2).nameOf from rfl)]
    rw [show [io.tempName] ++ [nm] = io.tempName :: [nm] from rfl]
    rw [lookupN_dir_cons (by
      rw [findChild_append_of_none htfresh,
        if_pos (show (Node.dir io.tempName 511 [Node.file nm 420 ptB]).nameOf =
          io.tempName from rfl)])]
    rw [lookupN_one, findChild,
      if_pos (show (Node.file nm 420 ptB).nameOf = nm from rfl)]
  have hfreshD : findChild (c2 ++ [Node.dir io.tempName 511 [Node.file nm 420 ptB]])
      D.nameOf = none := by
    rw [hDnm, findChild_append_of_none houtab,
      if_neg (show ¬ (Node.dir io.tempName 511 [Node.file nm 420 ptB]).nameOf = nm
        from htnenm)]
  have hextract := extract_walk (sizeOf D) D (Nat.le_refl _) W []
    (setNodeAt fs2 W (.dir wnm wm (c2 ++ [.dir io.tempName 511 [.file nm 420 ptB]])))
    wnm wm (c2 ++ [.dir io.tempName 511 [.file nm 420 ptB]])
    hWne hWv (by intro s hs; cases hs) hDval
    (by
      rw [List.append_nil]
      exact lookupN_setNodeAt_self hlkW
        (show (Node.dir wnm wm (c2 ++ [Node.dir io.tempName 511
          [.file nm 420 ptB]])).nameOf = (Node.dir wnm wm c2).nameOf from rfl))
    hfreshD
  rw [List.append_nil] at hextract
  have hunzip : unzipFolderM env
      (setNodeAt fs2 W (.dir wnm wm (c2 ++ [.dir io.tempName 511 [.file nm 420 ptB]])))
      (absOfSegs (W ++ [io.tempName] ++ [nm])) (absOfSegs W) =
      (.ok (), setNodeAt fs2 W (.dir wnm wm ((c2 ++ [.dir io.tempName 511
        [.file nm 420 ptB]]) ++ [mirror D]))) := by
    rw [unzipFolderM_entries (by rw [hrzf]; exact hlkstaged) hzipdec]
    rw [hextract]
    rw [setNodeAt_collapse hlkW
      (show (Node.dir wnm wm (c2 ++ [Node.dir io.tempName 511
        [.file nm 420 ptB]])).nameOf = (Node.dir wnm wm c2).nameOf from rfl)]
  -- the staging directory removal
  have hrem : removeAllN (setNodeAt fs2 W (.dir wnm wm ((c2 ++ [.dir io.tempName 511
      [.file nm 420 ptB]]) ++ [mirror D]))) (W ++ [io.tempName]) =
      setNodeAt fs2 W (.dir wnm wm (c2 ++ [mirror D])) := by
    rw [removeAllN_reduce (lookupN_setNodeAt_self hlkW
      (show (Node.dir wnm wm ((c2 ++ [Node.dir io.tempName 511
        [.file nm 420 ptB]]) ++ [mirror D])).nameOf =
        (Node.dir wnm wm c2).nameOf from rfl)) (by simp)]
    rw [removeAllN_one]
    rw [setNodeAt_collapse hlkW
      (show (Node.dir wnm wm ((c2 ++ [Node.dir io.tempName 511
        [.file nm 420 ptB]]) ++ [mirror D])).nameOf =
        (Node.dir wnm wm c2).nameOf from rfl)]
    congr 2
    rw [List.filter_append, List.filter_append, filter_of_findChild_none htfresh]
    rw [show (([Node.dir io.tempName 511 [Node.file nm 420 ptB]] :
        List Node).filter (fun c => c.nameOf ≠ io.tempName)) = [] from by
      simp [List.filter_cons, Node.nameOf]]
    rw [show (([mirror D] : List Node).filter
        (fun c => c.nameOf ≠ io.tempName)) = [mirror D] from by
      simp [List.filter_cons, mirror_nameOf, hDnm]
      intro hc
      exact htnenm hc.symm]
    simp
  -- assemble the branch
  rw [cliBranch_run e1, hwd, htemp, hrt, hfs1]
  rw [cliAfterTemp_pw hpw]
  simp only [if_true]
  rw [cliDecWork_ok (by rw [htrim]; exact hstat)
    (by rw [htrim, hbase, hzf]; exact hdecfile)
    (by rw [htrim, hbase, hzf]; exact hunzip)]
  rw [hrem]
  simp


/-! ## Container codec facts -/

theorem mkSalt_length (io : IOOracle) : (mkSalt io).length = 32 := by
  simp [mkSalt, scrypt_salt_len]
  omega

theorem mkNonce_length (io : IOOracle) : (mkNonce io).length = 12 := by
  simp [mkNonce, scrypt_nonce_len]
  omega

theorem parseContainer_long {data : List Nat} (h : 44 ≤ data.length) :
    parseContainer data =
      .ok (data.take 32, (data.drop 32).take 12, data.drop 44) := by
  have h1 : sliceGo data 0 scrypt_salt_len = .ok (data.take 32) := by
    rw [sliceGo, if_pos]
    · simp [scrypt_salt_len]
    · simp only [scrypt_salt_len]
      omega
  have h2 : sliceGo data scrypt_salt_len (scrypt_salt_len + scrypt_nonce_len) =
      .ok ((data.drop 32).take 12) := by
    rw [sliceGo, if_pos]
    · simp [scrypt_salt_len, scrypt_nonce_len]
    · simp only [scrypt_salt_len, scrypt_nonce_len]
      omega
  have h3 : sliceFrom data (scrypt_salt_len + scrypt_nonce_len) =
      .ok (data.drop 44) := by
    rw [sliceFrom, if_pos]
    · simp [scrypt_salt_len, scrypt_nonce_len]
    · simp only [scrypt_salt_len, scrypt_nonce_len]
      omega
  rw [parseContainer]
  simp only [h1, h2, h3]

theorem parseContainer_serializeContainer {salt nonce ct : List Nat}
    (hs : salt.length = 32) (hn : nonce.length = 12) :
    parseContainer (serializeContainer salt nonce ct) = .ok (salt, nonce, ct) := by
  have hsn : (salt ++ nonce).length = 44 := by simp [hs, hn]
  have hlen : 44 ≤ (serializeContainer salt nonce ct).length := by
    simp [serializeContainer, hs, hn]
    omega
  rw [parseContainer_long hlen]
  have t1 : (serializeContainer salt nonce ct).take 32 = salt := by
    rw [serializeContainer, List.append_assoc, List.take_append_of_le_length (by omega)]
    rw [← hs, List.take_length]
  have t2 : ((serializeContainer salt nonce ct).drop 32).take 12 = nonce := by
    rw [serializeContainer, List.append_assoc, List.drop_left' hs,
      List.take_append_of_le_length (by omega), ← hn, List.take_length]
  have t3 : (serializeContainer salt nonce ct).drop 44 = ct := by
    rw [serializeContainer, List.drop_left' hsn]
  rw [t1, t2, t3]

/-- A minimal oracle used to instantiate theorems at concrete inputs. -/
def io0 : IOOracle := { tempName := ['t'], passwordRes := .ok [1] }

/-- C8: the container format is the plain concatenation salt ‖ nonce ‖
ciphertext; parsing any input of length ≥ 44 deterministically returns
bytes [0,32) as the salt, [32,44) as the nonce and [44,end) as the
ciphertext (tag included), so `parse` inverts `serialize`. -/
theorem C8_container_format :
    (∀ salt nonce ct : List Nat,
      serializeContainer salt nonce ct = salt ++ nonce ++ ct) ∧
    (∀ data : List Nat, 44 ≤ data.length →
      parseContainer data =
        .ok (data.take 32, (data.drop 32).take 12, data.drop 44)) ∧
    (∀ salt nonce ct : List Nat, salt.length = 32 → nonce.length = 12 →
      parseContainer (serializeContainer salt nonce ct) = .ok (salt, nonce, ct)) :=
  ⟨fun _ _ _ => rfl, fun _ h => parseContainer_long h,
   fun _ _ _ hs hn => parseContainer_serializeContainer hs hn⟩

/-- Witness for C8 at a concrete container. -/
theorem C8_container_format_witness :
    parseContainer (serializeContainer (List.replicate 32 1)
        (List.replicate 12 2) [9]) =
      .ok (List.replicate 32 1, List.replicate 12 2, [9]) :=
  C8_container_format.2.2 (List.replicate 32 1) (List.replicate 12 2) [9]
    (by decide) (by decide)

/-- C10: the container this tool produces on a plaintext of `n` bytes is
exactly `32 + 12 + (n + 16) = n + 60` bytes long — salt, nonce, and the
ciphertext that carries the 16-byte GCM tag — hence never shorter than 60
bytes. -/
theorem C10_container_length (env : CryptoEnv) (hseal : SealLen env)
    (io : IOOracle) (key pt : List Nat) :
    (serializeContainer (mkSalt io) (mkNonce io)
        (env.sealAEAD key (mkNonce io) pt)).length = pt.length + 60 ∧
    60 ≤ (serializeContainer (mkSalt io) (mkNonce io)
        (env.sealAEAD key (mkNonce io) pt)).length := by
  have h : (serializeContainer (mkSalt io) (mkNonce io)
      (env.sealAEAD key (mkNonce io) pt)).length = pt.length + 60 := by
    simp [serializeContainer, mkSalt_length io, mkNonce_length io,
      hseal key (mkNonce io) pt]
    omega
  exact ⟨h, by omega⟩

/-- Witness for C10 at a concrete one-byte plaintext. -/
theorem C10_container_length_witness :
    (serializeContainer (mkSalt io0) (mkNonce io0)
        (toyEnv.sealAEAD [] (mkNonce io0) [5])).length = 61 ∧
    60 ≤ (serializeContainer (mkSalt io0) (mkNonce io0)
        (toyEnv.sealAEAD [] (mkNonce io0) [5])).length :=
  C10_container_length toyEnv toyEnv_sealLen io0 [] [5]

/-- C3: on any container shorter than 44 bytes the program does not fail
with a malformed-container error — the slice expression `data[32:44]`
(or `data[:32]`) panics with a slice-bounds runtime error, before any key
derivation or decryption; `decryptFile` propagates the panic with the
filesystem untouched. -/
theorem C3_short_container_panics (data : List Nat) (hshort : data.length < 44) :
    parseContainer data = .panicked sliceBoundsMsg ∧
    ∀ (env : CryptoEnv) (io : IOOracle) (fs : Node)
      (encName outName : List Char) (fnm : List Char) (fm : Nat) (pw : List Nat),
      lookupN fs (resolveSegs encName) = some (.file fnm fm data) →
      decryptFileM env io fs encName outName pw =
        (.panicked sliceBoundsMsg, fs, [Event.zero .cipherBuf]) := by
  have hp : parseContainer data = .panicked sliceBoundsMsg := by
    by_cases h32 : data.length < 32
    · have h1 : sliceGo data 0 scrypt_salt_len = .panicked sliceBoundsMsg := by
        rw [sliceGo, if_neg]
        simp only [scrypt_salt_len]
        omega
      rw [parseContainer]
      simp only [h1]
    · have h1 : sliceGo data 0 scrypt_salt_len = .ok (data.take 32) := by
        rw [sliceGo, if_pos]
        · simp [scrypt_salt_len]
        · simp only [scrypt_salt_len]
          omega
      have h2 : sliceGo data scrypt_salt_len (scrypt_salt_len + scrypt_nonce_len) =
          .panicked sliceBoundsMsg := by
        rw [sliceGo, if_neg]
        simp only [scrypt_salt_len, scrypt_nonce_len]
        omega
      rw [parseContainer]
      simp only [h1, h2]
  refine ⟨hp, ?_⟩
  intro env io fs encName outName fnm fm pw hlk
  rw [decryptFileM_read hlk, decAfterRead_panic hp]
  rfl

/-- A filesystem holding one ten-byte `.enc` file. -/
def fsShort : Node :=
  .dir [] 511 [.file ['x', '.', 'e', 'n', 'c'] 438 [0, 1, 2, 3, 4, 5, 6, 7, 8, 9]]

/-- Witness for C3: a ten-byte container panics instead of erroring. -/
theorem C3_short_container_panics_witness :
    parseContainer [0, 1, 2, 3, 4, 5, 6, 7, 8, 9] = .panicked sliceBoundsMsg ∧
    decryptFileM toyEnv io0 fsShort
        (absOfSegs [['x', '.', 'e', 'n', 'c']]) ['o'] [1] =
      (.panicked sliceBoundsMsg, fsShort, [Event.zero .cipherBuf]) := by
  have h := C3_short_container_panics [0, 1, 2, 3, 4, 5, 6, 7, 8, 9] (by decide)
  exact ⟨h.1, h.2 toyEnv io0 fsShort (absOfSegs [['x', '.', 'e', 'n', 'c']]) ['o']
    ['x', '.', 'e', 'n', 'c'] 438 [1] rfl⟩

/-- C4: an authentication failure of `aesgcm.Open` — whatever its cause —
is collapsed into the one error value `authFailure` with the filesystem
untouched; in particular, under the AEAD contracts, flipping any single
bit of a sealed container's ciphertext region yields exactly that error,
not a panic and not silently wrong output. -/
theorem C4_single_auth_failure (env : CryptoEnv)
    (hoi : OpenIffSeal env) (hsb : SingleBitTamper env) :
    (∀ (io : IOOracle) (fs : Node) (outName : List Char) (nonce ct key : List Nat),
      io.newCipherErr = false → io.newGCMErr = false →
      env.openAEAD key nonce ct = none →
      decAfterKey env io fs outName nonce ct key = (.err .authFailure, fs, [])) ∧
    (∀ (io : IOOracle) (fs : Node) (outName : List Char) (k n p : List Nat)
      (i j : Nat),
      io.newCipherErr = false → io.newGCMErr = false →
      i < (env.sealAEAD k n p).length → j < 8 →
      decAfterKey env io fs outName n (flipBitAt (env.sealAEAD k n p) i j) k =
        (.err .authFailure, fs, [])) := by
  constructor
  · intro io fs outName nonce ct key e4 e5 hopen
    exact decAfterKey_authFail e4 e5 hopen
  · intro io fs outName k n p i j e4 e5 hi hj
    have hnone : env.openAEAD k n (flipBitAt (env.sealAEAD k n p) i j) = none := by
      cases hop : env.openAEAD k n (flipBitAt (env.sealAEAD k n p) i j) with
      | none => rfl
      | some p' => exact absurd ((hoi k n _ p').mp hop) (hsb k n p p' i j hi hj)
    exact decAfterKey_authFail e4 e5 hnone

/-- Witness for C4: a concrete failed open and a concrete bit flip. -/
theorem C4_single_auth_failure_witness :
    decAfterKey toyEnv io0 (.dir [] 511 []) ['o'] [9] [7] [1] =
      (.err .authFailure, .dir [] 511 [], []) ∧
    decAfterKey toyEnv io0 (.dir [] 511 [])
        ['o'] [2] (flipBitAt (toyEnv.sealAEAD [1] [2] [3]) 0 0) [1] =
      (.err .authFailure, .dir [] 511 [], []) :=
  ⟨(C4_single_auth_failure toyEnv toyEnv_openIffSeal toyEnv_singleBitTamper).1
      io0 (.dir [] 511 []) ['o'] [9] [7] [1] rfl rfl (by decide),
   (C4_single_auth_failure toyEnv toyEnv_openIffSeal toyEnv_singleBitTamper).2
      io0 (.dir [] 511 []) ['o'] [1] [2] [3] 0 0 rfl rfl (by decide) (by decide)⟩

/-- C2: the entry loop of `unzipFolder` runs the containment check on
each entry before creating or writing anything for it: the first
escaping entry aborts extraction with the `pathSecurity` error, and the
filesystem reflects exactly the entries strictly before it. -/
theorem C2_containment_aborts (folder : List Char) (pre : List Entry)
    (e : Entry) (rest : List Entry) (fs : Node)
    (hpre : ∀ e' ∈ pre, escapesRoot folder e'.name = false)
    (hesc : escapesRoot folder e.name = true) :
    unzipEntriesM folder (pre ++ e :: rest) fs =
      (.err (.pathSecurity (goJoin folder e.name) folder),
       pre.foldl (unzipStep folder) fs) := by
  induction pre generalizing fs with
  | nil =>
    rw [List.nil_append, unzipEntriesM, if_pos hesc]
    rfl
  | cons p ps ih =>
    rw [List.cons_append, unzipEntriesM,
      if_neg (by rw [hpre p (by simp)]; simp)]
    rw [ih (unzipStep folder fs p)
      (fun e' he' => hpre e' (List.mem_cons_of_mem p he'))]
    rfl

/-- Witness for C2: a good entry followed by a `../` entry — extraction
stops at the escaping entry with only the first entry written. -/
theorem C2_containment_aborts_witness :
    unzipEntriesM ['/', 'w']
      [⟨['g'], false, 420, [1]⟩, ⟨['.', '.', '/', 'x'], false, 420, [2]⟩]
      (.dir [] 511 [.dir ['w'] 511 []]) =
      (.err (.pathSecurity (goJoin ['/', 'w'] ['.', '.', '/', 'x']) ['/', 'w']),
       unzipStep ['/', 'w'] (.dir [] 511 [.dir ['w'] 511 []])
         ⟨['g'], false, 420, [1]⟩) :=
  C2_containment_aborts ['/', 'w'] [⟨['g'], false, 420, [1]⟩]
    ⟨['.', '.', '/', 'x'], false, 420, [2]⟩ [] (.dir [] 511 [.dir ['w'] 511 []])
    (by decide) (by decide)

/-- C9: what `cli` actually selects on a single existing path: an input
that is neither a directory nor suffixed `.enc` is rejected as an
`inputError` with no effect; otherwise the branch is decided by the
`.enc` suffix of the cleaned path *first* — a directory whose name ends
in `.enc` takes the decrypt branch, so the suffix test has precedence
over the directory test. -/
theorem C9_entry_selection (fs : Node) (a : List Char) (n : Node)
    (h1 : a ≠ helpFlag1) (h2 : a ≠ helpFlag2)
    (h3 : a ≠ versionFlag1) (h4 : a ≠ versionFlag2)
    (hlk : lookupN fs (resolveSegs a) = some n) :
    (isDirNode n = false → encSuffix.isSuffixOf a = false →
      ∀ (env : CryptoEnv) (io : IOOracle),
        cliFull env io fs [a] = (.err (.inputError a), fs, [])) ∧
    (isDirNode n = true ∨ encSuffix.isSuffixOf a = true →
      cliChoice fs [a] =
        if encSuffix.isSuffixOf (goClean a) then .decBranch (goClean a)
        else .encBranch (goClean a)) := by
  have hch : cliChoice fs [a] =
      if ¬ isDirNode n ∧ ¬ encSuffix.isSuffixOf a then .badInput a
      else if encSuffix.isSuffixOf (goClean a) then .decBranch (goClean a)
      else .encBranch (goClean a) := by
    rw [cliChoice]
    rw [if_neg (by simp [h1, h2])]
    rw [if_neg (by simp [h3, h4])]
    rw [if_neg (by simp)]
    rw [hlk]
  constructor
  · intro hdir hsuf env io
    have hbad : cliChoice fs [a] = .badInput a := by
      rw [hch, if_pos]
      constructor
      · simp [hdir]
      · simp [hsuf]
    rw [cliFull, hbad]
  · intro hor
    rw [hch, if_neg]
    rcases hor with hd | hs
    · intro hcon
      exact absurd hd (by simpa using hcon.1)
    · intro hcon
      exact absurd hs (by simpa using hcon.2)

/-- Witness for C9: a plain file is rejected; a plain directory still
takes the encrypt branch. -/
theorem C9_entry_selection_witness :
    cliFull toyEnv io0 (.dir [] 511 [.file ['n'] 420 []]) [['/', 'n']] =
      (.err (.inputError ['/', 'n']), .dir [] 511 [.file ['n'] 420 []], []) ∧
    cliChoice (.dir [] 511 [.dir ['d'] 511 []]) [['/', 'd']] =
      .encBranch ['/', 'd'] := by
  constructor
  · exact (C9_entry_selection (.dir [] 511 [.file ['n'] 420 []]) ['/', 'n']
      (.file ['n'] 420 []) (by decide) (by decide) (by decide) (by decide) rfl).1
      rfl rfl toyEnv io0
  · have h := (C9_entry_selection (.dir [] 511 [.dir ['d'] 511 []]) ['/', 'd']
      (.dir ['d'] 511 []) (by decide) (by decide) (by decide) (by decide) rfl).2
      (Or.inl rfl)
    rw [h, if_neg (by decide)]
    decide

/-- C9 counterexample: a *directory* named `a.enc` takes the decrypt
branch, not the encrypt branch — the suffix check runs first. -/
theorem C9_entry_selection_counterexample :
    isDirNode (Node.dir ['a', '.', 'e', 'n', 'c'] 511 []) = true ∧
    cliChoice (.dir [] 511 [.dir ['a', '.', 'e', 'n', 'c'] 511 []])
        [['/', 'a', '.', 'e', 'n', 'c']] =
      .decBranch ['/', 'a', '.', 'e', 'n', 'c'] := by
  constructor
  · rfl
  · decide



/-! ## Frame lemmas for the encrypt pipeline's failure paths -/

theorem encAfterKey_err_frame (env : CryptoEnv) (io : IOOracle) (fs : Node)
    (outName : List Char) (pt salt key : List Nat)
    (hw1 : io.createOutErr = false) (hw2 : io.writeSaltErr = false)
    (hw3 : io.writeNonceErr = false) (hw4 : io.writeCtErr = false)
    (e : Err) (hfail : (encAfterKey env io fs outName pt salt key).1 = .err e) :
    (encAfterKey env io fs outName pt salt key).2.1 = fs := by
  cases h4 : io.newCipherErr <;> cases h5 : io.newGCMErr <;> cases h6 : io.nonceErr <;>
    simp [encAfterKey, h4, h5, h6, hw1, hw2, hw3, hw4] at hfail ⊢

/-- C5: as long as none of the four destination-write calls of
`encryptFile` (`os.Create` and the three `Write`s) is the failing one,
every failing `encryptFile` invocation leaves the filesystem — and so
the real output location — unchanged.  (The write stage itself operates
in place at the destination; see the counterexample.) -/
theorem C5_failure_leaves_no_output (env : CryptoEnv) (io : IOOracle)
    (fs : Node) (filename outName : List Char) (pw : List Nat)
    (hw1 : io.createOutErr = false) (hw2 : io.writeSaltErr = false)
    (hw3 : io.writeNonceErr = false) (hw4 : io.writeCtErr = false)
    (e : Err) (hfail : (encryptFileM env io fs filename outName pw).1 = .err e) :
    (encryptFileM env io fs filename outName pw).2.1 = fs := by
  cases hlk : lookupN fs (resolveSegs filename) with
  | none => simp [encryptFileM, hlk]
  | some nd =>
    cases nd with
    | dir dn dm dcs => simp [encryptFileM, hlk]
    | file fn fm pt =>
      cases h3 : io.saltErr with
      | true => simp [encryptFileM, hlk, h3]
      | false =>
        cases hscr : env.scryptKey pw (mkSalt io) scrypt_N scrypt_r scrypt_p
            scrypt_key_len with
        | error msg => simp [encryptFileM, hlk, h3, hscr]
        | ok key =>
          simp only [encryptFileM, hlk, h3, Bool.false_eq_true, if_false,
            hscr] at hfail ⊢
          exact encAfterKey_err_frame env io fs outName pt (mkSalt io) key
            hw1 hw2 hw3 hw4 e hfail

/-- An oracle whose salt generation fails. -/
def ioSaltFail : IOOracle :=
  { tempName := ['t'], passwordRes := .ok [1], saltErr := true }

/-- A root holding one plaintext file `z`. -/
def fsZ : Node := .dir [] 511 [.file ['z'] 420 [1, 2, 3]]

/-- Witness for C5: a failed salt generation leaves the tree unchanged. -/
theorem C5_failure_leaves_no_output_witness :
    (encryptFileM toyEnv ioSaltFail fsZ ['/', 'z'] ['/', 'o'] [1]).2.1 = fsZ :=
  C5_failure_leaves_no_output toyEnv ioSaltFail fsZ ['/', 'z'] ['/', 'o'] [1]
    rfl rfl rfl rfl (.ioFail .saltGen) rfl

/-- An oracle whose first container `Write` (the salt) fails. -/
def ioWriteSaltFail : IOOracle :=
  { tempName := ['t'], passwordRes := .ok [1], writeSaltErr := true }

/-- A root holding the directory `d` to encrypt. -/
def fsD : Node := .dir [] 511 [.dir ['d'] 488 [.file ['f'] 420 [7]]]

/-- C5 counterexample: with the salt write failing, the encrypt branch
reports an error, yet an (empty) output file `d.enc` has been created at
the real destination — the container is not staged and moved, it is
written incrementally in place. -/
theorem C5_failure_leaves_no_output_counterexample :
    (cliBranch toyEnv ioWriteSaltFail fsD ['/', 'd'] false).1 =
      .err (.ioFail .writeSalt) ∧
    lookupN (cliBranch toyEnv ioWriteSaltFail fsD ['/', 'd'] false).2.1
        [['d', '.', 'e', 'n', 'c']] =
      some (.file ['d', '.', 'e', 'n', 'c'] 438 []) := by
  constructor
  · rfl
  · rfl

/-! ## The output-collision check of the decrypt branch -/

theorem setNodeAt_eq_self {fs n0 : Node} {P : List (List Char)}
    (h : lookupN fs P = some n0) : setNodeAt fs P n0 = fs := by
  induction P generalizing fs with
  | nil =>
    rw [lookupN] at h
    cases h
    rw [setNodeAt_nil]
  | cons x P' ih =>
    cases fs with
    | file nm m c => simp [lookupN] at h
    | dir nm m cs =>
      cases hfc : findChild cs x with
      | none => rw [lookupN_dir_cons_none hfc] at h; cases h
      | some c =>
        rw [lookupN_dir_cons hfc] at h
        rw [setNodeAt_dir_cons hfc, ih h, replaceChild_self hfc]

theorem cliDecWork_exists {env : CryptoEnv} {io : IOOracle} {fs : Node}
    {f wd temp : List Char} {pw : List Nat}
    (hstat : statN fs (resolveSegs (trimSuffix f encSuffix)) = true) :
    cliDecWork env io fs f wd temp pw =
      (.err (.outputExists (trimSuffix f encSuffix)), fs, []) := by
  rw [cliDecWork]
  simp [hstat]

/-- C6: decrypting `W/(nm ++ ".enc")` while `W/nm` already exists fails
fast with the output-exists error before the container is even read, and
the filesystem is returned exactly as it was — nothing is overwritten or
merged (the staging directory is created and removed again). -/
theorem C6_output_collision (env : CryptoEnv) (io : IOOracle)
    {W : List (List Char)} {nm : List Char} {fs : Node}
    {wnm : List Char} {wm : Nat} {cs : List Node} {O : Node} {pw : List Nat}
    (hWne : W ≠ []) (hWv : ∀ s ∈ W, validSeg s = true)
    (hnmv : validSeg nm = true)
    (hlkW : lookupN fs W = some (.dir wnm wm cs))
    (hout : findChild cs nm = some O)
    (htv : validSeg io.tempName = true)
    (htfresh : findChild cs io.tempName = none)
    (hpw : io.passwordRes = .ok pw)
    (e1 : io.mkdirTempErr = false) :
    cliBranch env io fs (absOfSegs (W ++ [nm ++ encSuffix])) true =
      (.err (.outputExists (absOfSegs (W ++ [nm]))), fs,
       [Event.alloc .password, Event.zero .password]) := by
  have hosuf : validSeg (nm ++ encSuffix) = true := validSeg_encSuffix hnmv
  have hWnm : ∀ s ∈ W ++ [nm], validSeg s = true := by
    intro u hu
    rcases List.mem_append.mp hu with hu | hu
    · exact hWv u hu
    · simp at hu
      subst hu
      exact hnmv
  have hWt : ∀ s ∈ W ++ [io.tempName], validSeg s = true := by
    intro u hu
    rcases List.mem_append.mp hu with hu | hu
    · exact hWv u hu
    · simp at hu
      subst hu
      exact htv
  have hwd : goAbs io.cwd (goDir (absOfSegs (W ++ [nm ++ encSuffix]))) =
      absOfSegs W := by
    rw [goDir_absOfSegs hWv hosuf, goAbs_abs (isAbs_absOfSegs W),
      goClean_absOfSegs hWv]
  have htemp : goJoin (absOfSegs W) io.tempName = absOfSegs (W ++ [io.tempName]) :=
    goJoin_abs_single hWne hWv htv
  have hrt : resolveSegs (absOfSegs (W ++ [io.tempName])) = W ++ [io.tempName] :=
    resolveSegs_absOfSegs hWt
  have hfs1 : mkdirAllN fs (W ++ [io.tempName]) =
      setNodeAt fs W (.dir wnm wm (cs ++ [.dir io.tempName 511 []])) := by
    rw [mkdirAllN_reduce hlkW [io.tempName], mkdirAllN_one_fresh htfresh]
  have htrim : trimSuffix (absOfSegs (W ++ [nm ++ encSuffix])) encSuffix =
      absOfSegs (W ++ [nm]) := by
    rw [← absOfSegs_snoc_append W nm encSuffix, trimSuffix_append]
  have hname1 : (Node.dir wnm wm (cs ++ [Node.dir io.tempName 511 []])).nameOf =
      (Node.dir wnm wm cs).nameOf := rfl
  have hstat : statN (setNodeAt fs W (.dir wnm wm (cs ++ [.dir io.tempName 511 []])))
      (W ++ [nm]) = true := by
    rw [statN, lookupN_append (lookupN_setNodeAt_self hlkW hname1) [nm], lookupN_one,
      findChild_append_of_some hout]
    rfl
  have hrem : removeAllN
      (setNodeAt fs W (.dir wnm wm (cs ++ [.dir io.tempName 511 []])))
      (W ++ [io.tempName]) = fs := by
    rw [removeAllN_reduce (lookupN_setNodeAt_self hlkW hname1) (by simp),
      removeAllN_one, List.filter_append, filter_of_findChild_none htfresh,
      setNodeAt_collapse hlkW hname1]
    have hone : List.filter (fun c => c.nameOf ≠ io.tempName)
        [Node.dir io.tempName 511 []] = [] := by
      simp [Node.nameOf]
    rw [hone, List.append_nil]
    exact setNodeAt_eq_self hlkW
  rw [cliBranch_run e1, hwd, htemp, hrt, hfs1]
  rw [cliAfterTemp_pw hpw]
  simp only [if_true]
  rw [cliDecWork_exists (by rw [htrim, resolveSegs_absOfSegs hWnm]; exact hstat)]
  rw [htrim]
  rw [hrem]
  simp

/-- A root with `w/a` already present. -/
def fsC6 : Node := .dir [] 511 [.dir ['w'] 511 [.dir ['a'] 511 []]]

/-- Witness for C6: decrypting `/w/a.enc` while `/w/a` exists. -/
theorem C6_output_collision_witness :
    cliBranch toyEnv io0 fsC6 (absOfSegs [['w'], ['a', '.', 'e', 'n', 'c']]) true =
      (.err (.outputExists (absOfSegs [['w'], ['a']])), fsC6,
       [Event.alloc .password, Event.zero .password]) :=
  @C6_output_collision toyEnv io0 [['w']] ['a'] fsC6 ['w'] 511
    [.dir ['a'] 511 []] (.dir ['a'] 511 []) [1]
    (by decide) (by decide) (by decide) rfl rfl (by decide) rfl rfl rfl

/-! ## Trace lemmas: every allocated secret buffer is zeroed -/

/-- No `alloc t` event occurs in the trace. -/
def noAllocOf (t : Tag) (l : List Event) : Bool :=
  l.all (fun e => e ≠ Event.alloc t)

theorem allocsZeroed_append {t : Tag} {l1 l2 : List Event}
    (h1 : allocsZeroed t l1 = true) (h2 : allocsZeroed t l2 = true) :
    allocsZeroed t (l1 ++ l2) = true := by
  induction l1 with
  | nil => simpa using h2
  | cons e rest ih =>
    rw [allocsZeroed, Bool.and_eq_true] at h1
    obtain ⟨ha, hb⟩ := h1
    rw [List.cons_append, allocsZeroed, Bool.and_eq_true]
    refine ⟨?_, ih hb⟩
    by_cases he : e = Event.alloc t
    · rw [if_pos he] at ha ⊢
      simp only [decide_eq_true_eq] at ha ⊢
      exact List.mem_append.mpr (Or.inl ha)
    · rw [if_neg he]

theorem encAfterKey_trace (env : CryptoEnv) (io : IOOracle) (fs : Node)
    (outName : List Char) (pt salt key : List Nat) :
    (encAfterKey env io fs outName pt salt key).2.2 = [] := by
  rw [encAfterKey]
  repeat' split
  all_goals rfl

theorem encryptFileM_trace (env : CryptoEnv) (io : IOOracle) (fs : Node)
    (filename outName : List Char) (pw : List Nat) :
    (encryptFileM env io fs filename outName pw).2.2 = [] ∨
    (encryptFileM env io fs filename outName pw).2.2 =
      [Event.alloc .key, Event.zero .saltBuf, Event.zero .key] := by
  rw [encryptFileM]
  cases hlk : lookupN fs (resolveSegs filename) with
  | none => simp [hlk]
  | some nd =>
    cases nd with
    | dir a b c => simp [hlk]
    | file a b pt =>
      cases hse : io.saltErr with
      | true => simp [hlk, hse]
      | false =>
        cases hscr : env.scryptKey pw (mkSalt io) scrypt_N scrypt_r scrypt_p
            scrypt_key_len with
        | error m => simp [hlk, hse, hscr]
        | ok key => simp [hlk, hse, hscr, encAfterKey_trace]

theorem decAfterOpen_trace (io : IOOracle) (fs : Node) (outName : List Char)
    (pt : List Nat) : (decAfterOpen io fs outName pt).2.2 = [] := by
  rw [decAfterOpen]
  split
  all_goals rfl

theorem decAfterKey_trace (env : CryptoEnv) (io : IOOracle) (fs : Node)
    (outName : List Char) (nonce ct key : List Nat) :
    (decAfterKey env io fs outName nonce ct key).2.2 = [] ∨
    (decAfterKey env io fs outName nonce ct key).2.2 = [Event.zero .plainBuf] := by
  rw [decAfterKey]
  repeat' split
  all_goals simp [decAfterOpen_trace]

theorem decAfterRead_trace (env : CryptoEnv) (io : IOOracle) (fs : Node)
    (outName : List Char) (data pw : List Nat) :
    (decAfterRead env io fs outName data pw).2.2 = [] ∨
    (decAfterRead env io fs outName data pw).2.2 =
      [Event.alloc .key, Event.zero .saltBuf, Event.zero .key] ∨
    (decAfterRead env io fs outName data pw).2.2 =
      [Event.alloc .key, Event.zero .plainBuf, Event.zero .saltBuf,
       Event.zero .key] := by
  rw [decAfterRead]
  cases hp : parseContainer data with
  | panicked m => simp [hp]
  | err e => simp [hp]
  | ok triple =>
    obtain ⟨salt, nonce, ct⟩ := triple
    cases hscr : env.scryptKey pw salt scrypt_N scrypt_r scrypt_p scrypt_key_len with
    | error m => simp [hp, hscr]
    | ok key =>
      rcases decAfterKey_trace env io fs outName nonce ct key with h | h <;>
        simp [hp, hscr, h]

theorem decryptFileM_trace (env : CryptoEnv) (io : IOOracle) (fs : Node)
    (encName outName : List Char) (pw : List Nat) :
    (decryptFileM env io fs encName outName pw).2.2 = [] ∨
    (decryptFileM env io fs encName outName pw).2.2 = [Event.zero .cipherBuf] ∨
    (decryptFileM env io fs encName outName pw).2.2 =
      [Event.alloc .key, Event.zero .saltBuf, Event.zero .key,
       Event.zero .cipherBuf] ∨
    (decryptFileM env io fs encName outName pw).2.2 =
      [Event.alloc .key, Event.zero .plainBuf, Event.zero .saltBuf,
       Event.zero .key, Event.zero .cipherBuf] := by
  rw [decryptFileM]
  cases hlk : lookupN fs (resolveSegs encName) with
  | none => simp [hlk]
  | some nd =>
    cases nd with
    | dir a b c => simp [hlk]
    | file a b data =>
      rcases decAfterRead_trace env io fs outName data pw with h | h | h <;>
        simp [hlk, h]

theorem cliDecWork_trace (env : CryptoEnv) (io : IOOracle) (fs : Node)
    (f wd temp : List Char) (pw : List Nat) :
    (cliDecWork env io fs f wd temp pw).2.2 = [] ∨
    (cliDecWork env io fs f wd temp pw).2.2 = [Event.zero .cipherBuf] ∨
    (cliDecWork env io fs f wd temp pw).2.2 =
      [Event.alloc .key, Event.zero .saltBuf, Event.zero .key,
       Event.zero .cipherBuf] ∨
    (cliDecWork env io fs f wd temp pw).2.2 =
      [Event.alloc .key, Event.zero .plainBuf, Event.zero .saltBuf,
       Event.zero .key, Event.zero .cipherBuf] := by
  have hmain : (cliDecWork env io fs f wd temp pw).2.2 = [] ∨
      (cliDecWork env io fs f wd temp pw).2.2 =
        (decryptFileM env io fs f
          (goJoin temp (goBase (trimSuffix f encSuffix))) pw).2.2 := by
    rw [cliDecWork]
    cases hst : statN fs (resolveSegs (trimSuffix f encSuffix)) with
    | true => simp [hst]
    | false =>
      cases hr : (decryptFileM env io fs f
          (goJoin temp (goBase (trimSuffix f encSuffix))) pw).1 with
      | ok a => simp [hst, hr]
      | err e => simp [hst, hr]
      | panicked m => simp [hst, hr]
  rcases hmain with h | h
  · exact Or.inl h
  · rw [h]
    exact decryptFileM_trace env io fs f
      (goJoin temp (goBase (trimSuffix f encSuffix))) pw

theorem cliEncWork_trace (env : CryptoEnv) (io : IOOracle) (fs : Node)
    (f wd temp : List Char) (pw : List Nat) :
    (cliEncWork env io fs f wd temp pw).2.2 = [] ∨
    (cliEncWork env io fs f wd temp pw).2.2 =
      [Event.alloc .key, Event.zero .saltBuf, Event.zero .key] := by
  have hmain : (cliEncWork env io fs f wd temp pw).2.2 = [] ∨
      (cliEncWork env io fs f wd temp pw).2.2 =
        (encryptFileM env io
          (zipFolderM env io fs f (goJoin temp (goBase (f ++ encSuffix)))).2
          (goJoin temp (goBase (f ++ encSuffix))) (f ++ encSuffix) pw).2.2 := by
    rw [cliEncWork]
    cases hz : (zipFolderM env io fs f (goJoin temp (goBase (f ++ encSuffix)))).1 with
    | ok a => simp [hz]
    | err e => simp [hz]
    | panicked m => simp [hz]
  rcases hmain with h | h
  · exact Or.inl h
  · rw [h]
    exact encryptFileM_trace env io
      (zipFolderM env io fs f (goJoin temp (goBase (f ++ encSuffix)))).2
      (goJoin temp (goBase (f ++ encSuffix))) (f ++ encSuffix) pw

theorem cliAfterTemp_traces (env : CryptoEnv) (io : IOOracle) (fs : Node)
    (f wd temp : List Char) (isDec : Bool) :
    allocsZeroed .password (cliAfterTemp env io fs f wd temp isDec).2.2 = true ∧
    allocsZeroed .key (cliAfterTemp env io fs f wd temp isDec).2.2 = true := by
  rw [cliAfterTemp]
  cases hpw : io.passwordRes with
  | error m => exact ⟨rfl, rfl⟩
  | ok pw =>
    cases isDec with
    | false =>
      rcases cliEncWork_trace env io fs f wd temp pw with h | h <;>
        simp only [Bool.false_eq_true, if_false, h] <;> exact ⟨by decide, by decide⟩
    | true =>
      rcases cliDecWork_trace env io fs f wd temp pw with h | h | h | h <;>
        simp only [if_true, h] <;> exact ⟨by decide, by decide⟩

theorem cliBranch_traces (env : CryptoEnv) (io : IOOracle) (fs : Node)
    (f : List Char) (isDec : Bool) :
    allocsZeroed .password (cliBranch env io fs f isDec).2.2 = true ∧
    allocsZeroed .key (cliBranch env io fs f isDec).2.2 = true := by
  rw [cliBranch]
  split
  · exact ⟨rfl, rfl⟩
  · exact cliAfterTemp_traces env io _ f _ _ isDec

/-- C7: on every exit path of `cli` — early error returns and panics
included — each secret buffer that was allocated (the password read from
the terminal and the scrypt-derived key) is zeroed later in the same
run's event trace. -/
theorem C7_secret_buffers_zeroed (env : CryptoEnv) (io : IOOracle) (fs : Node)
    (args : List (List Char)) :
    allocsZeroed .password (cliFull env io fs args).2.2 = true ∧
    allocsZeroed .key (cliFull env io fs args).2.2 = true := by
  rw [cliFull]
  cases hch : cliChoice fs args with
  | help => exact ⟨rfl, rfl⟩
  | version => exact ⟨rfl, rfl⟩
  | usage => exact ⟨rfl, rfl⟩
  | notFound p => exact ⟨rfl, rfl⟩
  | badInput p => exact ⟨rfl, rfl⟩
  | encBranch f => exact cliBranch_traces env io fs f false
  | decBranch f => exact cliBranch_traces env io fs f true



/-! ## The round trip: encrypt, remove the original, decrypt -/

theorem findChild_filter_self_none (cs : List Node) (x : List Char) :
    findChild (cs.filter (fun c => c.nameOf ≠ x)) x = none := by
  induction cs with
  | nil => rfl
  | cons c rest ih =>
    rw [List.filter_cons]
    by_cases h : c.nameOf = x
    · rw [if_neg (by simp [h])]
      exact ih
    · rw [if_pos (by simp [h]), findChild, if_neg h]
      exact ih

/-- Encrypting the directory `W/nm`, deleting the original, and
decrypting `W/(nm ++ ".enc")` with the same password succeeds and
recreates `mirror D` at `W/nm`. -/
theorem encDecRoundtrip (env : CryptoEnv) (io1 io2 : IOOracle)
    {W : List (List Char)} {nm : List Char} {fs : Node}
    {wnm : List Char} {wm : Nat} {wcs : List Node} {D : Node} {pw key : List Nat}
    (hoi : OpenIffSeal env) (hzr : ZipRoundtrip env)
    (hWne : W ≠ []) (hWv : ∀ s ∈ W, validSeg s = true)
    (hnmv : validSeg nm = true)
    (hDval : validNode D = true) (hDnm : D.nameOf = nm)
    (hlkW : lookupN fs W = some (.dir wnm wm wcs))
    (hD : findChild wcs nm = some D)
    (ht1v : validSeg io1.tempName = true)
    (ht1fresh : findChild wcs io1.tempName = none)
    (hofresh : findChild wcs (nm ++ encSuffix) = none)
    (ht1ne : io1.tempName ≠ nm ++ encSuffix)
    (hpw1 : io1.passwordRes = .ok pw)
    (hscr : env.scryptKey pw (mkSalt io1) scrypt_N scrypt_r scrypt_p
      scrypt_key_len = .ok key)
    (ht2v : validSeg io2.tempName = true)
    (ht2fresh : findChild wcs io2.tempName = none)
    (ht2ne : io2.tempName ≠ nm) (ht2ne2 : io2.tempName ≠ nm ++ encSuffix)
    (hpw2 : io2.passwordRes = .ok pw)
    (e1 : io1.mkdirTempErr = false) (e2 : io1.createZipErr = false)
    (e3 : io1.saltErr = false) (e4 : io1.newCipherErr = false)
    (e5 : io1.newGCMErr = false) (e6 : io1.nonceErr = false)
    (e7 : io1.createOutErr = false) (e8 : io1.writeSaltErr = false)
    (e9 : io1.writeNonceErr = false) (e10 : io1.writeCtErr = false)
    (f1 : io2.mkdirTempErr = false) (f4 : io2.newCipherErr = false)
    (f5 : io2.newGCMErr = false) (f11 : io2.writeZipStageErr = false) :
    (cliBranch env io1 fs (absOfSegs (W ++ [nm])) false).1 = .ok () ∧
    (cliBranch env io2
      (removeAllN (cliBranch env io1 fs (absOfSegs (W ++ [nm])) false).2.1
        (W ++ [nm]))
      (absOfSegs (W ++ [nm ++ encSuffix])) true).1 = .ok () ∧
    lookupN (cliBranch env io2
      (removeAllN (cliBranch env io1 fs (absOfSegs (W ++ [nm])) false).2.1
        (W ++ [nm]))
      (absOfSegs (W ++ [nm ++ encSuffix])) true).2.1 (W ++ [nm]) =
      some (mirror D) := by
  obtain ⟨salt, hsalt⟩ : ∃ s, mkSalt io1 = s := ⟨_, rfl⟩
  obtain ⟨nonce, hnonce⟩ : ∃ s, mkNonce io1 = s := ⟨_, rfl⟩
  obtain ⟨ptB, hpt⟩ : ∃ p, env.zipEncode (walkEntries [] D) = p := ⟨_, rfl⟩
  have henc := encBranch_run env io1 hWne hWv hnmv hlkW hD ht1v ht1fresh hofresh
    ht1ne hpw1 hscr e1 e2 e3 e4 e5 e6 e7 e8 e9 e10
  rw [hsalt, hnonce, hpt] at henc
  obtain ⟨ct, hct⟩ : ∃ c, env.sealAEAD key nonce ptB = c := ⟨_, rfl⟩
  rw [hct] at henc
  obtain ⟨cont, hcont⟩ : ∃ c, serializeContainer salt nonce ct = c := ⟨_, rfl⟩
  rw [hcont] at henc
  have hne_out_nm : nm ++ encSuffix ≠ nm := by
    intro hx
    have hlen := congrArg List.length hx
    rw [List.length_append] at hlen
    simp only [encSuffix, List.length_cons, List.length_nil] at hlen
    omega
  have hname1 :
      (Node.dir wnm wm (wcs ++ [Node.file (nm ++ encSuffix) 438 cont])).nameOf =
      (Node.dir wnm wm wcs).nameOf := rfl
  have hrm : removeAllN
      (setNodeAt fs W (.dir wnm wm (wcs ++ [.file (nm ++ encSuffix) 438 cont])))
      (W ++ [nm]) =
      setNodeAt fs W (.dir wnm wm
        (wcs.filter (fun c => c.nameOf ≠ nm) ++
          [.file (nm ++ encSuffix) 438 cont])) := by
    rw [removeAllN_reduce (lookupN_setNodeAt_self hlkW hname1) (by simp),
      removeAllN_one, List.filter_append, setNodeAt_collapse hlkW hname1]
    have hone : List.filter (fun c => c.nameOf ≠ nm)
        [Node.file (nm ++ encSuffix) 438 cont] =
        [Node.file (nm ++ encSuffix) 438 cont] := by
      simp [List.filter_cons, Node.nameOf, hne_out_nm]
    rw [hone]
  have h2 : removeAllN (cliBranch env io1 fs (absOfSegs (W ++ [nm])) false).2.1
      (W ++ [nm]) =
      setNodeAt fs W (.dir wnm wm
        (wcs.filter (fun c => c.nameOf ≠ nm) ++
          [.file (nm ++ encSuffix) 438 cont])) := by
    rw [henc]
    exact hrm
  have hname2 : (Node.dir wnm wm
      (wcs.filter (fun c => c.nameOf ≠ nm) ++
        [Node.file (nm ++ encSuffix) 438 cont])).nameOf =
      (Node.dir wnm wm wcs).nameOf := rfl
  have hlkW2 : lookupN (setNodeAt fs W (.dir wnm wm
      (wcs.filter (fun c => c.nameOf ≠ nm) ++
        [.file (nm ++ encSuffix) 438 cont]))) W =
      some (.dir wnm wm
        (wcs.filter (fun c => c.nameOf ≠ nm) ++
          [.file (nm ++ encSuffix) 438 cont])) :=
    lookupN_setNodeAt_self hlkW hname2
  have hcont2 : findChild
      (wcs.filter (fun c => c.nameOf ≠ nm) ++ [.file (nm ++ encSuffix) 438 cont])
      (nm ++ encSuffix) = some (.file (nm ++ encSuffix) 438 cont) := by
    rw [findChild_append_of_none (findChild_filter_of_none _ hofresh),
      if_pos (show (Node.file (nm ++ encSuffix) 438 cont).nameOf = nm ++ encSuffix
        from rfl)]
  have houtab : findChild
      (wcs.filter (fun c => c.nameOf ≠ nm) ++ [.file (nm ++ encSuffix) 438 cont])
      nm = none := by
    rw [findChild_append_of_none (findChild_filter_self_none wcs nm),
      if_neg (show ¬ ((Node.file (nm ++ encSuffix) 438 cont).nameOf = nm)
        from hne_out_nm)]
  have htfresh2 : findChild
      (wcs.filter (fun c => c.nameOf ≠ nm) ++ [.file (nm ++ encSuffix) 438 cont])
      io2.tempName = none := by
    rw [findChild_append_of_none (findChild_filter_of_none _ ht2fresh),
      if_neg (show ¬ ((Node.file (nm ++ encSuffix) 438 cont).nameOf = io2.tempName)
        from fun hx => ht2ne2 hx.symm)]
  have hparse : parseContainer cont = .ok (salt, nonce, ct) := by
    rw [← hcont]
    exact parseContainer_serializeContainer
      (by rw [← hsalt]; exact mkSalt_length io1)
      (by rw [← hnonce]; exact mkNonce_length io1)
  have hscr2 : env.scryptKey pw salt scrypt_N scrypt_r scrypt_p scrypt_key_len =
      .ok key := by
    rw [← hsalt]
    exact hscr
  have hopen : env.openAEAD key nonce ct = some ptB :=
    (hoi key nonce ct ptB).mpr hct.symm
  have hzipdec : env.zipDecode ptB = some (walkEntries [] D) := by
    rw [← hpt]
    exact hzr (walkEntries [] D)
  have hdec := decBranch_run env io2 hWne hWv hnmv hDval hDnm hlkW2 hcont2
    houtab htfresh2 ht2v ht2ne hpw2 hparse hscr2 hopen hzipdec f1 f4 f5 f11
  refine ⟨by rw [henc], by rw [h2, hdec], ?_⟩
  rw [h2, hdec]
  have hname3 : (Node.dir wnm wm
      ((wcs.filter (fun c => c.nameOf ≠ nm) ++
        [Node.file (nm ++ encSuffix) 438 cont]) ++ [mirror D])).nameOf =
      (Node.dir wnm wm
        (wcs.filter (fun c => c.nameOf ≠ nm) ++
          [Node.file (nm ++ encSuffix) 438 cont])).nameOf := rfl
  have hlk3 := lookupN_setNodeAt_self hlkW2 hname3
  rw [show ((Res.ok (),
      setNodeAt (setNodeAt fs W (.dir wnm wm
        (wcs.filter (fun c => c.nameOf ≠ nm) ++
          [.file (nm ++ encSuffix) 438 cont]))) W
        (.dir wnm wm
          ((wcs.filter (fun c => c.nameOf ≠ nm) ++
            [Node.file (nm ++ encSuffix) 438 cont]) ++ [mirror D])),
      [Event.alloc .password, Event.alloc .key, Event.zero .plainBuf,
       Event.zero .saltBuf, Event.zero .key, Event.zero .cipherBuf,
       Event.zero .password]) :
        Res Unit × Node × List Event).2.1 =
      setNodeAt (setNodeAt fs W (.dir wnm wm
        (wcs.filter (fun c => c.nameOf ≠ nm) ++
          [.file (nm ++ encSuffix) 438 cont]))) W
        (.dir wnm wm
          ((wcs.filter (fun c => c.nameOf ≠ nm) ++
            [Node.file (nm ++ encSuffix) 438 cont]) ++ [mirror D])) from rfl]
  rw [lookupN_append hlk3 [nm], lookupN_one, findChild_append_of_none houtab,
    if_pos (show (mirror D).nameOf = nm by rw [mirror_nameOf, hDnm])]

/-- C1: the round trip recreates the tree up to `mirror`: for every
well-formed directory `D` at `W/nm` and password, encrypting, removing
the original, and decrypting with the same password succeeds and leaves
`mirror D` at `W/nm` — the same relative paths, byte-identical file
contents and identical file modes, but every directory recreated with
permission bits `0o777` instead of its original mode bits. -/
theorem C1_roundtrip (env : CryptoEnv) (io1 io2 : IOOracle)
    {W : List (List Char)} {nm : List Char} {fs : Node}
    {wnm : List Char} {wm : Nat} {wcs : List Node} {D : Node} {pw key : List Nat}
    (hoi : OpenIffSeal env) (hzr : ZipRoundtrip env)
    (hWne : W ≠ []) (hWv : ∀ s ∈ W, validSeg s = true)
    (hnmv : validSeg nm = true)
    (hDval : validNode D = true) (hDnm : D.nameOf = nm)
    (hlkW : lookupN fs W = some (.dir wnm wm wcs))
    (hD : findChild wcs nm = some D)
    (ht1v : validSeg io1.tempName = true)
    (ht1fresh : findChild wcs io1.tempName = none)
    (hofresh : findChild wcs (nm ++ encSuffix) = none)
    (ht1ne : io1.tempName ≠ nm ++ encSuffix)
    (hpw1 : io1.passwordRes = .ok pw)
    (hscr : env.scryptKey pw (mkSalt io1) scrypt_N scrypt_r scrypt_p
      scrypt_key_len = .ok key)
    (ht2v : validSeg io2.tempName = true)
    (ht2fresh : findChild wcs io2.tempName = none)
    (ht2ne : io2.tempName ≠ nm) (ht2ne2 : io2.tempName ≠ nm ++ encSuffix)
    (hpw2 : io2.passwordRes = .ok pw)
    (e1 : io1.mkdirTempErr = false) (e2 : io1.createZipErr = false)
    (e3 : io1.saltErr = false) (e4 : io1.newCipherErr = false)
    (e5 : io1.newGCMErr = false) (e6 : io1.nonceErr = false)
    (e7 : io1.createOutErr = false) (e8 : io1.writeSaltErr = false)
    (e9 : io1.writeNonceErr = false) (e10 : io1.writeCtErr = false)
    (f1 : io2.mkdirTempErr = false) (f4 : io2.newCipherErr = false)
    (f5 : io2.newGCMErr = false) (f11 : io2.writeZipStageErr = false) :
    (cliBranch env io1 fs (absOfSegs (W ++ [nm])) false).1 = .ok () ∧
    (cliBranch env io2
      (removeAllN (cliBranch env io1 fs (absOfSegs (W ++ [nm])) false).2.1
        (W ++ [nm]))
      (absOfSegs (W ++ [nm ++ encSuffix])) true).1 = .ok () ∧
    lookupN (cliBranch env io2
      (removeAllN (cliBranch env io1 fs (absOfSegs (W ++ [nm])) false).2.1
        (W ++ [nm]))
      (absOfSegs (W ++ [nm ++ encSuffix])) true).2.1 (W ++ [nm]) =
      some (mirror D) :=
  encDecRoundtrip env io1 io2 hoi hzr hWne hWv hnmv hDval hDnm hlkW hD
    ht1v ht1fresh hofresh ht1ne hpw1 hscr ht2v ht2fresh ht2ne ht2ne2 hpw2
    e1 e2 e3 e4 e5 e6 e7 e8 e9 e10 f1 f4 f5 f11

/-- A root holding `w/d` where `d` is the directory to round-trip,
with mode bits `0o750` (488). -/
def fsR : Node :=
  .dir [] 511 [.dir ['w'] 511 [.dir ['d'] 488 [.file ['f'] 420 [7]]]]

/-- Witness for C1 at a concrete two-level tree. -/
theorem C1_roundtrip_witness :
    (cliBranch toyEnv io0 fsR (absOfSegs [['w'], ['d']]) false).1 = .ok () ∧
    (cliBranch toyEnv io0
      (removeAllN (cliBranch toyEnv io0 fsR (absOfSegs [['w'], ['d']]) false).2.1
        [['w'], ['d']])
      (absOfSegs [['w'], ['d', '.', 'e', 'n', 'c']]) true).1 = .ok () ∧
    lookupN (cliBranch toyEnv io0
      (removeAllN (cliBranch toyEnv io0 fsR (absOfSegs [['w'], ['d']]) false).2.1
        [['w'], ['d']])
      (absOfSegs [['w'], ['d', '.', 'e', 'n', 'c']]) true).2.1 [['w'], ['d']] =
      some (mirror (.dir ['d'] 488 [.file ['f'] 420 [7]])) :=
  @C1_roundtrip toyEnv io0 io0 [['w']] ['d'] fsR ['w'] 511
    [.dir ['d'] 488 [.file ['f'] 420 [7]]] (.dir ['d'] 488 [.file ['f'] 420 [7]])
    [1] (List.replicate 32 1)
    toyEnv_openIffSeal toyEnv_zipRoundtrip
    (by decide) (by decide) (by decide)
    (by rw [validNode_dir]
        simp only [List.all_cons, List.all_nil, validNode_file]
        decide)
    rfl rfl rfl (by decide) rfl rfl (by decide) rfl rfl (by decide) rfl
    (by decide) (by decide) rfl
    rfl rfl rfl rfl rfl rfl rfl rfl rfl rfl rfl rfl rfl rfl

/-- C1 counterexample: the directory `d` enters the round trip with mode
bits `0o750` (488) and comes back with `0o777` (511) — the mode bits of
directories are not preserved. -/
theorem C1_roundtrip_counterexample :
    lookupN (cliBranch toyEnv io0
        (removeAllN (cliBranch toyEnv io0 fsR (absOfSegs [['w'], ['d']]) false).2.1
          [['w'], ['d']])
        (absOfSegs [['w'], ['d', '.', 'e', 'n', 'c']]) true).2.1 [['w'], ['d']] =
      some (.dir ['d'] 511 [.file ['f'] 420 [7]]) ∧
    lookupN fsR [['w'], ['d']] = some (.dir ['d'] 488 [.file ['f'] 420 [7]]) ∧
    (488 : Nat) ≠ 511 := by
  have h := @encDecRoundtrip toyEnv io0 io0 [['w']] ['d'] fsR ['w'] 511
    [.dir ['d'] 488 [.file ['f'] 420 [7]]] (.dir ['d'] 488 [.file ['f'] 420 [7]])
    [1] (List.replicate 32 1)
    toyEnv_openIffSeal toyEnv_zipRoundtrip
    (by decide) (by decide) (by decide)
    (by rw [validNode_dir]
        simp only [List.all_cons, List.all_nil, validNode_file]
        decide)
    rfl rfl rfl (by decide) rfl rfl (by decide) rfl rfl (by decide) rfl
    (by decide) (by decide) rfl
    rfl rfl rfl rfl rfl rfl rfl rfl rfl rfl rfl rfl rfl rfl
  have h3 : lookupN (cliBranch toyEnv io0
      (removeAllN (cliBranch toyEnv io0 fsR (absOfSegs [['w'], ['d']]) false).2.1
        [['w'], ['d']])
      (absOfSegs [['w'], ['d', '.', 'e', 'n', 'c']]) true).2.1 [['w'], ['d']] =
      some (mirror (.dir ['d'] 488 [.file ['f'] 420 [7]])) := h.2.2
  refine ⟨?_, rfl, by decide⟩
  rw [h3]
  simp [mirror_dir, mirror_file]


end ZC
